import Mathlib

/-!
# GileBrowser — verification of the caching and serving core

Shallow embedding, in Lean 4, of the parts of the GileBrowser HTTP file
server that the specification's claims are about:

* the path resolver (`resolvePath`, handlers package) together with a
  faithful translation of Go's `path/filepath.Clean` for Unix;
* the root-label map construction of `server.Run` and `rootName`;
* the bandwidth string parser `parseBandwidth` (config package);
* the directory tree model with symlinks, the naive recursive walker
  `dirSize`, the one-pass warmer `buildSizeIndex`, and the search index
  builder `walkDir`/`buildIndex`;
* a fuelled, path-based filesystem model used to study termination of
  `dirSize` on symlink cycles;
* the two-pass ZIP streamer `buildZip`/`streamZip`;
* the download statistics recorder `RecordDownload` and the recording
  done by `FileHandler` and `ZipHandler`;
* a labelled transition system for the directory-size cache
  (`cachedDirSize` / `invalidateSizePath` / `evictSizePath`).

Machine integers: all byte counts in the source are `int64`; actual file
and archive sizes are non-negative and far below `2^63`, and no claim is
about overflow, so they are modelled as `Nat` (and `Int` where the source
stores signed values).  Floating point (`float64` in `parseBandwidth`) is
modelled by `ℚ`; every constant appearing in the relevant claims is exact
in both representations.
-/

namespace Gile

/-! ## Go string and path primitives (Unix)

`path/filepath` on Unix: the separator is `'/'` and `volumeNameLen` is
always `0`, so the Windows-only branches of the library are omitted.
Loops are translated with an explicit fuel argument equal to the length
of the input; every iteration of the corresponding Go loop consumes at
least one input byte, so this fuel is always sufficient (the fuel-out
branch is unreachable) and the definitions stay structurally recursive,
hence computable by `decide`/`rfl`.
-/

/-- The byte popping step of `filepath.Clean`'s `..` handling:
`out.w--; for out.w > dotdot && !os.IsPathSeparator(out.index(out.w)) { out.w-- }`.
`rev` is the output buffer reversed; the function drops the last byte and
keeps dropping while the byte just dropped is not a separator and the
buffer is still longer than `dotdot`. -/
def cleanPop (dotdot : Nat) : List Char → List Char
  | [] => []
  | c :: rest =>
    if (c :: rest).length ≤ dotdot + 1 ∨ c = '/' then rest
    else cleanPop dotdot rest

/-- Main loop of `filepath.Clean` (Unix). `out` is the output buffer in
reverse order, `dotdot` the low-water mark below which `..` may not pop.
`fuel` bounds the iteration count; each Go iteration consumes at least
one input byte, so `input.length` fuel suffices. -/
def cleanLoop (rooted : Bool) : Nat → List Char → List Char → Nat → List Char
  | 0, _, out, _ => out
  | _ + 1, [], out, _ => out
  | fuel + 1, c :: rest, out, dotdot =>
    if c = '/' then
      -- empty path element
      cleanLoop rooted fuel rest out dotdot
    else if c = '.' ∧ (rest = [] ∨ rest.head? = some '/') then
      -- `.` element
      cleanLoop rooted fuel rest out dotdot
    else if c = '.' ∧ rest.head? = some '.' ∧
        (rest.tail = [] ∨ rest.tail.head? = some '/') then
      -- `..` element: backtrack if possible
      if out.length > dotdot then
        cleanLoop rooted fuel rest.tail (cleanPop dotdot out) dotdot
      else if ¬ rooted then
        let out' := (if out.length > 0 then '/' :: out else out)
        cleanLoop rooted fuel rest.tail ('.' :: '.' :: out') (out'.length + 2)
      else
        cleanLoop rooted fuel rest.tail out dotdot
    else
      -- real path element: add slash if needed, then copy the element
      let out' := if (rooted ∧ out.length ≠ 1) ∨ (¬ rooted ∧ out.length ≠ 0)
        then '/' :: out else out
      let seg := (c :: rest).takeWhile (· ≠ '/')
      cleanLoop rooted fuel ((c :: rest).dropWhile (· ≠ '/'))
        (seg.reverse ++ out') dotdot

/-- `filepath.Clean` for Unix, translated from Go `path/filepath/path.go`. -/
def goClean (s : String) : String :=
  let cs := s.data
  match cs with
  | [] => "."
  | c0 :: restAll =>
    let rooted := c0 = '/'
    let (start, out0, dotdot0) :=
      if rooted then (restAll, ['/'], 1) else (cs, ([] : List Char), 0)
    let out := cleanLoop rooted start.length start out0.reverse dotdot0
    if out = [] then "." else String.mk out.reverse

/-- `strings.TrimPrefix(s, "/")`: drop one leading `/` if present. -/
def trimSlashPrefix (s : String) : String :=
  match s.data with
  | '/' :: rest => String.mk rest
  | _ => s

/-- `strings.SplitN(s, "/", 2)`: the part before the first `/`, and the
remainder after it (`none` when `s` contains no `/`, matching the
one-element slice Go returns in that case). -/
def splitN2 (s : String) : String × Option String :=
  let pre := s.data.takeWhile (· ≠ '/')
  match s.data.dropWhile (· ≠ '/') with
  | [] => (String.mk pre, none)
  | _ :: rest => (String.mk pre, some (String.mk rest))

/-- `filepath.Join(a, b)` for two elements (Unix): skip leading empty
elements, join the rest with `/`, `Clean` the result; all empty gives
the empty string. -/
def goJoin2 (a b : String) : String :=
  if a ≠ "" then goClean (a ++ "/" ++ b)
  else if b ≠ "" then goClean b
  else ""

/-- `strings.HasPrefix(s, pre)`: byte-level prefix test, done on the
character lists (equivalent on well-formed UTF-8). `String.isPrefixOf`
is avoided only because its native `substrEq` does not reduce in the
kernel. -/
def hasPrefixGo (pre s : String) : Bool :=
  pre.data.isPrefixOf s.data

/-- Go map lookup, for maps modelled as association lists. -/
def mapFind? (m : List (String × String)) (k : String) : Option String :=
  match m.find? (fun kv => kv.1 = k) with
  | some kv => some kv.2
  | none => none

/-! ## Path resolver (`resolvePath`, handlers package)

Translated from the `resolvePath` function: split the URL path into root
label and remaining tail, look the label up in the roots map, join the
tail onto the root's filesystem path, and require that the cleaned
result stays at or below the cleaned root. -/

/-- `resolvePath(roots, urlPath)`. The Go `map[string]string` is an
association list; `mapFind?` is Go map lookup. -/
def resolvePath (roots : List (String × String)) (urlPath : String) :
    Except String String :=
  if ¬ hasPrefixGo "/" urlPath then .error "invalid path"
  else
    let parts := splitN2 (trimSlashPrefix urlPath)
    let rn := parts.1
    match mapFind? roots rn with
    | none => .error "unknown root"
    | some rootFS =>
      let rel := (parts.2).getD ""
      let fsPath := goJoin2 rootFS rel
      let cleanRoot := goClean rootFS
      let cleanPath := goClean fsPath
      if cleanPath ≠ cleanRoot ∧ ¬ hasPrefixGo (cleanRoot ++ "/") cleanPath then
        .error "path traversal detected"
      else
        .ok cleanPath

/-! ## Root labels (`server.rootName`, `server.Run`) -/

/-- `filepath.Base` for Unix: strip trailing slashes, take everything
after the last remaining slash; empty input gives `"."`, all-slashes
gives `"/"`. -/
def goBase (s : String) : String :=
  if s = "" then "."
  else
    let cs := (s.data.reverse.dropWhile (· = '/')).reverse
    let last := (cs.reverse.takeWhile (· ≠ '/')).reverse
    if last = [] then "/" else String.mk last

/-- `strings.ToLower`, restricted to ASCII (`Char.toLower` lowercases
`A`–`Z`; the Unicode cases do not affect any claim). -/
def toLowerGo (s : String) : String :=
  String.mk (s.data.map Char.toLower)

/-- `rootName(dir)`: base name of the cleaned path, lowercased, with
spaces replaced by hyphens (`strings.ReplaceAll(base, " ", "-")`
rewritten as a character map, which is equivalent for one-character
patterns). -/
def rootName (dir : String) : String :=
  let base := goBase (goClean dir)
  let base := toLowerGo base
  String.mk (base.data.map (fun c => if c = ' ' then '-' else c))

/-- Go map assignment `m[k] = v`, modelled lookup-equivalently on
association lists: remove any existing binding of `k`, bind `k ↦ v`. -/
def mapInsert (m : List (String × String)) (k v : String) :
    List (String × String) :=
  (k, v) :: m.filter (fun kv => kv.1 ≠ k)

/-- The roots map built by `server.Run`:
`for _, d := range cfg.Dirs { roots[rootName(d)] = d }`.
There is no duplicate check and no error path. -/
def buildRoots (dirs : List String) : List (String × String) :=
  dirs.foldl (fun m d => mapInsert m (rootName d) d) []

/-! ## Bandwidth parsing (`config.parseBandwidth`)

`float64` is modelled by `ℚ`; every constant in the claims is exactly
representable in both. -/

/-- `unicode.IsSpace` restricted to ASCII whitespace (sufficient for all
inputs in the claims). -/
def isSpaceGo (c : Char) : Bool :=
  c = ' ' ∨ c = '\t' ∨ c = '\n' ∨ c = '\x0b' ∨ c = '\x0c' ∨ c = '\r'

/-- `strings.TrimSpace`. -/
def goTrimSpace (s : String) : String :=
  String.mk (((s.data.dropWhile isSpaceGo).reverse.dropWhile isSpaceGo).reverse)

/-- Numeric value of a digit string. -/
def digitsVal (cs : List Char) : Nat :=
  cs.foldl (fun acc c => acc * 10 + (c.toNat - '0'.toNat)) 0

/-- `strconv.ParseFloat` on strings made only of digits and dots (the
only strings the `parseBandwidth` scanner can produce): at most one dot
and at least one digit, value read exactly into `ℚ`. -/
def parseDecimalQ (cs : List Char) : Option ℚ :=
  match cs.splitOn '.' with
  | [ds] => if ds = [] then none else some (digitsVal ds)
  | [ip, fp] =>
    if ip = [] ∧ fp = [] then none
    else some ((digitsVal ip : ℚ) + (digitsVal fp : ℚ) / ((10 : ℚ) ^ fp.length))
  | _ => none

/-- `config.parseBandwidth`: split into numeric prefix and unit suffix,
then convert according to the unit.  Note that the `""` (bare number)
case shares the `/ 8` conversion with `"bps"` in the source. -/
def parseBandwidth (s : String) : Except String ℚ :=
  let s := goTrimSpace s
  if s = "" ∨ s = "0" then .ok 0
  else
    let cs := s.data
    let numCs := cs.takeWhile (fun c => c = '.' ∨ ('0' ≤ c ∧ c ≤ '9'))
    let restCs := cs.dropWhile (fun c => c = '.' ∨ ('0' ≤ c ∧ c ≤ '9'))
    if numCs = [] then .error "no numeric value found"
    else
      let unit := toLowerGo (goTrimSpace (String.mk restCs))
      match parseDecimalQ numCs with
      | none => .error "invalid number"
      | some v =>
        if v < 0 then .error "invalid number"
        else if unit = "" ∨ unit = "bps" then .ok (v / 8)
        else if unit = "kbps" then .ok (v * 1000 / 8)
        else if unit = "mbps" then .ok (v * 1000000 / 8)
        else if unit = "gbps" then .ok (v * 1000000000 / 8)
        else .error "unknown unit"

end Gile

namespace Gile

/-! ## Theorems: C1 (path resolution stays under the root) -/

/-- **C1.** For every roots map and URL path, `resolvePath` either fails
or returns a cleaned filesystem path that equals the (normalized)
configured root for the path's leading label, or begins with that root
followed by the path separator — so the returned path never escapes its
root.  (The comparison root is `goClean rootFS`, exactly the
`cleanRoot` the source compares against; the spec phrases it as the
"normalized root".) -/
theorem resolvePath_stays_under_root (roots : List (String × String))
    (u p : String) (h : resolvePath roots u = .ok p) :
    ∃ rootFS, mapFind? roots (splitN2 (trimSlashPrefix u)).1 = some rootFS ∧
      (p = goClean rootFS ∨ hasPrefixGo (goClean rootFS ++ "/") p) := by
  simp only [resolvePath] at h
  split at h
  · exact absurd h (by simp)
  · split at h
    · exact absurd h (by simp)
    · rename_i rootFS hfind
      split at h
      · exact absurd h (by simp)
      · rename_i hesc
        cases h
        refine ⟨rootFS, hfind, ?_⟩
        rcases not_and_or.mp hesc with h1 | h2
        · exact Or.inl (not_not.mp h1)
        · exact Or.inr (not_not.mp h2)

/-- Witness for C1 at a concrete input: resolving `/a/sub/x` against the
roots map `{a ↦ /tmp/A}` succeeds with `/tmp/A/sub/x`, which the theorem
places under the cleaned root. -/
theorem resolvePath_stays_under_root_witness :
    ∃ rootFS, mapFind? [("a", "/tmp/A")]
        (splitN2 (trimSlashPrefix "/a/sub/x")).1 = some rootFS ∧
      ("/tmp/A/sub/x" = goClean rootFS ∨
        hasPrefixGo (goClean rootFS ++ "/") "/tmp/A/sub/x") :=
  resolvePath_stays_under_root [("a", "/tmp/A")] "/a/sub/x" "/tmp/A/sub/x"
    (by rfl)

/-! ## Theorems: C10 (duplicate root labels — later directory wins) -/

theorem find?_filter_ne (m : List (String × String)) (k q : String)
    (h : q ≠ k) :
    (m.filter (fun kv => kv.1 ≠ k)).find? (fun kv => kv.1 = q) =
      m.find? (fun kv => kv.1 = q) := by
  induction m with
  | nil => rfl
  | cons kv rest ih =>
    by_cases h1 : kv.1 = k
    · have h2 : ¬ (kv.1 = q) := fun hq => h (hq ▸ h1)
      rw [List.filter_cons_of_neg (by simpa using h1),
        List.find?_cons_of_neg _ (by simpa using h2), ih]
    · rw [List.filter_cons_of_pos (by simpa using h1)]
      by_cases h2 : kv.1 = q
      · rw [List.find?_cons_of_pos _ (by simpa using h2),
          List.find?_cons_of_pos _ (by simpa using h2)]
      · rw [List.find?_cons_of_neg _ (by simpa using h2),
          List.find?_cons_of_neg _ (by simpa using h2), ih]

theorem mapFind?_mapInsert (m : List (String × String)) (k v q : String) :
    mapFind? (mapInsert m k v) q = if q = k then some v else mapFind? m q := by
  by_cases h : q = k
  · simp only [mapFind?, mapInsert]
    rw [List.find?_cons_of_pos _ (by simpa using h.symm), if_pos h]
  · simp only [mapFind?, mapInsert]
    rw [List.find?_cons_of_neg _ (by simpa using fun hq => h hq.symm),
      find?_filter_ne m k q h, if_neg h]

/-- **C10.** The roots map built in `server.Run` binds each label to the
*last* directory in `cfg.Dirs` iteration order whose `rootName` equals
that label; when two configured directories collide on a label the
earlier one is silently shadowed (and `buildRoots`, like the source
loop, has no error path). -/
theorem buildRoots_keeps_later_directory (dirs : List String) (lbl : String) :
    mapFind? (buildRoots dirs) lbl =
      (dirs.filter (fun d => rootName d = lbl)).getLast? := by
  induction dirs using List.reverseRecOn with
  | nil => rfl
  | append_singleton pre d ih =>
    have hfold : buildRoots (pre ++ [d]) =
        mapInsert (buildRoots pre) (rootName d) d := by
      simp [buildRoots, List.foldl_append]
    rw [hfold, mapFind?_mapInsert, List.filter_append]
    by_cases hd : rootName d = lbl
    · simp [hd, List.getLast?_concat]
    · have hne : ¬ (lbl = rootName d) := fun h => hd h.symm
      simp [hd, hne, ih]

/-! ## Theorems: C8 (bare bandwidth numbers are divided by eight) -/

theorem parseBandwidth_eval_bare : parseBandwidth "1000" = .ok ((1000 : ℚ) / 8) := rfl

theorem parseBandwidth_eval_bps : parseBandwidth "1000bps" = .ok ((1000 : ℚ) / 8) := rfl

theorem parseBandwidth_eval_kbps : parseBandwidth "8kbps" = .ok ((8 : ℚ) * 1000 / 8) := rfl

theorem parseBandwidth_eval_mbps : parseBandwidth "8mbps" = .ok ((8 : ℚ) * 1000000 / 8) := rfl

theorem parseBandwidth_eval_gbps : parseBandwidth "8gbps" = .ok ((8 : ℚ) * 1000000000 / 8) := rfl

/-- **C8 (evaluation at the failing input).** `parseBandwidth` sends the
bare numeric string `"1000"` through the same `val / 8` conversion as
the `bps` unit, producing `125` bytes/sec — not the `1000` bytes/sec
that the claim (and the function's own doc comment, "A bare number is
treated as bytes per second") requires.  The suffixed units are indeed
bits-per-second divided by eight, as the claim states. -/
theorem parseBandwidth_bare_number_divided_by_eight :
    parseBandwidth "1000" = .ok 125 ∧ (125 : ℚ) ≠ 1000 ∧
      parseBandwidth "1000bps" = .ok 125 ∧
      parseBandwidth "8kbps" = .ok 1000 ∧
      parseBandwidth "8mbps" = .ok 1000000 ∧
      parseBandwidth "8gbps" = .ok 1000000000 := by
  refine ⟨?_, by norm_num, ?_, ?_, ?_, ?_⟩ <;>
    first
      | (rw [parseBandwidth_eval_bare]; norm_num)
      | (rw [parseBandwidth_eval_bps]; norm_num)
      | (rw [parseBandwidth_eval_kbps]; norm_num)
      | (rw [parseBandwidth_eval_mbps]; norm_num)
      | (rw [parseBandwidth_eval_gbps]; norm_num)

/-! ## Filesystem tree model (handlers: `dirSize`, `buildSizeIndex`, `walkDir`)

A filesystem subtree is an inductive tree.  A symlink is modelled with
the subtree its `filepath.EvalSymlinks` resolution denotes snapshotted
into the node (`link t`); a `broken` link is one whose resolution fails.
This matches how the source consumes symlinks: every use first resolves
the link and then operates on the resolved target (`dirSize(resolved)`,
`os.Stat(resolved)`, `os.ReadDir` follows links), and no claim about
these functions depends on the textual target path.  Symlink *cycles*
are not representable in this tree model; termination of `dirSize` on
cycles is studied separately with the fuelled path-based model below. -/

inductive FNode where
  | file (size : Nat)
  | dir (entries : List (String × FNode))
  | link (target : FNode)
  | broken
deriving Repr

/-- `filepath.EvalSymlinks` at the node level: chase the link chain;
`broken` anywhere in the chain is a resolution error. -/
def resolveNode : FNode → Option FNode
  | .link t => resolveNode t
  | .broken => none
  | n => some n

/-! `dirSize(root)` (handlers, dir.go — the snapshot cited by the
claims): resolve the root through its symlink chain, then `WalkDir`:
regular files accumulate their size, real directories are descended
into, a symlink is resolved and contributes its target file's size or
`dirSize(resolved)` for a directory target, and stat/resolve errors are
skipped.  Each constructor case below is exactly the contribution the
Go callback makes for that kind of entry, so one recursive function
covers both the root call and the per-entry handling. -/
mutual
/-- See the comment above: `dirSize(root)` from dir.go. -/
def dirSize : FNode → Nat
  | .file s => s
  | .broken => 0
  | .link t => dirSize t
  | .dir es => dirSizeEntries es

def dirSizeEntries : List (String × FNode) → Nat
  | [] => 0
  | e :: rest => dirSize e.2 + dirSizeEntries rest
end

/-- Lookup of the node at a relative path, descending through real
directory entries only (the paths `filepath.WalkDir` can visit). -/
def nodeAt? : FNode → List String → Option FNode
  | n, [] => some n
  | .dir es, name :: rest =>
    match es.find? (fun e => e.1 = name) with
    | some e => nodeAt? e.2 rest
    | none => none
  | _, _ :: _ => none

/-! ### `buildSizeIndex` (handlers/cache.go)

Paths are segment lists (`/data/sub` is `["data", "sub"]`).  For the
clean absolute paths `filepath.WalkDir` produces, `filepath.Dir` is
`List.dropLast` and `filepath.Join(p, name)` is `p ++ [name]`; the
string length used by the pass-2 sort is `pathStrLen` below.  The Go
map is an association list; `bumpAt` is `sizes[p] += v` (which for an
absent key, and hence also for the single `sizes[p] = sz` assignment to
the never-previously-touched symlink path, inserts the key). -/

abbrev Path := List String

abbrev SizeMap := List (Path × Nat)

/-- `sizes[p] += v`: update the binding in place, or append a new one. -/
def bumpAt (m : SizeMap) (p : Path) (v : Nat) : SizeMap :=
  match m with
  | [] => [(p, v)]
  | (q, x) :: rest => if q = p then (q, x + v) :: rest else (q, x) :: bumpAt rest p v

/-- Reading a Go map: the bound value, or the zero value `0`. -/
def lookupD (m : SizeMap) (p : Path) : Nat :=
  match m with
  | [] => 0
  | (q, x) :: rest => if q = p then x else lookupD rest p

def mapKeys (m : SizeMap) : List Path :=
  m.map (fun e => e.1)

/-! Pass 1 of `buildSizeIndex` as the sequence of map mutations the
`WalkDir` callback performs, in visit order: an ensure (`+= 0`) per real
directory, `sizes[parent] += size` per regular file and per resolved
file symlink, and `sizes[p] = dirSize(resolved)` plus
`sizes[parent] += dirSize(resolved)` per resolved directory symlink.
`p.dropLast` is `filepath.Dir(p)`. -/
mutual
/-- See the comment above: pass 1 mutations of `buildSizeIndex`. -/
def walkEvents (p : Path) : FNode → List (Path × Nat)
  | .file s => [(p.dropLast, s)]
  | .broken => []
  | .link t =>
    match resolveNode t with
    | none => []
    | some (.file s) => [(p.dropLast, s)]
    | some (.dir es) => [(p, dirSizeEntries es), (p.dropLast, dirSizeEntries es)]
    | some _ => []
  | .dir es => (p, 0) :: walkEventsEntries p es

def walkEventsEntries (p : Path) : List (String × FNode) → List (Path × Nat)
  | [] => []
  | (name, c) :: rest => walkEvents (p ++ [name]) c ++ walkEventsEntries p rest
end

/-! The `terminal` set recorded by pass 1: the paths of symlinks whose
resolved target is a directory. -/
mutual
/-- The `terminal` set recorded by pass 1 (see above). -/
def terminals (p : Path) : FNode → List Path
  | .link t =>
    match resolveNode t with
    | some (.dir _) => [p]
    | _ => []
  | .dir es => terminalsEntries p es
  | _ => []

def terminalsEntries (p : Path) : List (String × FNode) → List Path
  | [] => []
  | (name, c) :: rest => terminals (p ++ [name]) c ++ terminalsEntries p rest
end

/-- Go string length of the absolute path a segment list denotes
(`"/" = 1`; otherwise one `/` per segment plus the segment bytes).
This is the quantity `sort.Slice(dirs, func(i, j) { return
len(dirs[i]) > len(dirs[j]) })` compares. -/
def pathStrLen (p : Path) : Nat :=
  match p with
  | [] => 1
  | _ => (p.map String.length).sum + p.length

/-- Insertion sort by `pathStrLen` descending: a deterministic
instance of the unstable `sort.Slice` call (correctness of pass 2 is
proved for every order that puts longer paths first, see
`propagate_correct`). -/
def insertDesc (k : Path) : List Path → List Path
  | [] => [k]
  | d :: rest =>
    if pathStrLen d ≤ pathStrLen k then k :: d :: rest
    else d :: insertDesc k rest

def sortKeysDesc : List Path → List Path
  | [] => []
  | d :: rest => insertDesc d (sortKeysDesc rest)

/-- Pass 2 of `buildSizeIndex`: in sorted order, roll each
non-terminal directory's subtotal up to its parent
(`sizes[parent] += sizes[d]`, guarded by `parent != d`). -/
def propagate (term : List Path) (m : SizeMap) (ds : List Path) : SizeMap :=
  match ds with
  | [] => m
  | d :: rest =>
    if d ∈ term then propagate term m rest
    else if d.dropLast = d then propagate term m rest
    else propagate term (bumpAt m d.dropLast (lookupD m d)) rest

/-- The pass-1 map: the seed `sizes[root] = 0` with the walk events
replayed over it. -/
def m1Of (R : Path) (es : List (String × FNode)) : SizeMap :=
  (walkEventsEntries R es).foldl (fun m ev => bumpAt m ev.1 ev.2) [(R, 0)]

/-- `buildSizeIndex(root)` for a root directory whose tree is
`.dir es`: seed the root, replay the walk events, then run the
propagation pass over the keys sorted by descending path length. -/
def buildSizeIndex (R : Path) (es : List (String × FNode)) : SizeMap :=
  propagate (terminalsEntries R es) (m1Of R es) (sortKeysDesc (mapKeys (m1Of R es)))

/-! ### Search index (`buildIndex` / `walkDir`, handlers, part of file.go)

The snapshot cited by the claim and consistent with the cached gzip
index (`cachedIndexGzip`): directories are recursed into but not
emitted; every non-directory entry is appended with its name and URL
path.  The `models.IndexEntry` struct has a `Size int64` field which
this `walkDir` never assigns, so it keeps its zero value. -/

structure IndexEntry where
  name : String
  path : String
  size : Nat
deriving Repr, DecidableEq

/-- `entryIsDir(parent, d)`: directory test that follows symlinks
(`os.Stat` on the joined path when the entry is a symlink). -/
def entryIsDir (n : FNode) : Bool :=
  match n with
  | .dir _ => true
  | .link t =>
    match resolveNode t with
    | some (.dir _) => true
    | _ => false
  | _ => false

/-- URL path `"/<label>/<relpath>"` for a file at relative segment list
`rel` (`filepath.Rel(fsRoot, fullPath)` of a walk path is exactly the
relative segments joined by `/`). -/
def urlPath (label : String) (rel : List String) : String :=
  "/" ++ label ++ "/" ++ String.intercalate "/" rel

/-! `walkDir(rootName, fsRoot, dir, idx)`: `walkDirNode` is `os.ReadDir`
on a directory-like node (following a symlink chain, returning nothing
on error, i.e. on a non-directory), `walkDirEntries` the loop body:
recurse into entries that `entryIsDir` reports as directories, append
`{Name, Path}` (and the never-assigned zero `Size`) for the rest. -/
mutual
/-- See the comment above: `walkDir` from file.go (current snapshot). -/
def walkDirNode (label : String) (rel : List String) : FNode → List IndexEntry
  | .dir es => walkDirEntries label rel es
  | .link t => walkDirNode label rel t
  | _ => []

def walkDirEntries (label : String) (rel : List String) :
    List (String × FNode) → List IndexEntry
  | [] => []
  | (name, c) :: rest =>
    (if entryIsDir c then walkDirNode label (rel ++ [name]) c
     else [⟨name, urlPath label (rel ++ [name]), 0⟩]) ++
    walkDirEntries label rel rest
end

/-- `buildIndex(roots)`: walk every root in order. -/
def buildIndex (roots : List (String × FNode)) : List IndexEntry :=
  match roots with
  | [] => []
  | (label, rn) :: rest => walkDirNode label [] rn ++ buildIndex rest

/-! ## Proof infrastructure for C3

The definitions below are proof-side bookkeeping (not translations of
source code): per-entry local contributions, the value a node's own
walk events leave at its path, event sums, and a well-formedness
predicate (directory trees with distinct, non-empty entry names —
what a real filesystem guarantees). -/

def isRealDir : FNode → Bool
  | .dir _ => true
  | _ => false

def isLinkDir : FNode → Bool
  | .link t =>
    match resolveNode t with
    | some (.dir _) => true
    | _ => false
  | _ => false

/-- The direct contribution an entry makes to its parent directory's
pass-1 subtotal. -/
def localContrib : FNode → Nat
  | .file s => s
  | .dir _ => 0
  | .broken => 0
  | .link t =>
    match resolveNode t with
    | some (.file s) => s
    | some (.dir es) => dirSizeEntries es
    | _ => 0

def localSumEntries : List (String × FNode) → Nat
  | [] => 0
  | e :: rest => localContrib e.2 + localSumEntries rest

/-- The value pass 1 leaves at a visited node's own path. -/
def nodeSelfVal : FNode → Nat
  | .dir es => localSumEntries es
  | .link t =>
    match resolveNode t with
    | some (.dir es) => dirSizeEntries es
    | _ => 0
  | _ => 0

/-- Sum of the event values that target `q`. -/
def evSum (q : Path) : List (Path × Nat) → Nat
  | [] => 0
  | ev :: rest => (if ev.1 = q then ev.2 else 0) + evSum q rest

mutual
/-- Well-formed tree: every directory has pairwise-distinct, non-empty
entry names (true of any real filesystem). -/
def wfT : FNode → Bool
  | .dir es => wfEntries es
  | _ => true

def wfEntries : List (String × FNode) → Bool
  | [] => true
  | (name, c) :: rest =>
    name ≠ "" ∧ rest.all (fun e => e.1 ≠ name) ∧ wfT c ∧ wfEntries rest
end

/-! ### Association-list map lemmas -/

theorem lookupD_bumpAt (m : SizeMap) (p q : Path) (v : Nat) :
    lookupD (bumpAt m p v) q = if q = p then lookupD m q + v else lookupD m q := by
  induction m with
  | nil =>
    by_cases h : q = p
    · subst h; simp [bumpAt, lookupD]
    · have hp : ¬ (p = q) := fun h' => h h'.symm
      simp [bumpAt, lookupD, hp, h]
  | cons e rest ih =>
    obtain ⟨r, x⟩ := e
    by_cases h1 : r = p
    · subst h1
      by_cases h2 : q = r
      · subst h2; simp [bumpAt, lookupD]
      · have hr : ¬ (r = q) := fun h => h2 h.symm
        simp [bumpAt, lookupD, hr, h2]
    · by_cases h2 : r = q
      · subst h2
        have hqp : ¬ (r = p) := h1
        simp [bumpAt, lookupD, h1, fun h : r = p => h1 h]
      · simp [bumpAt, lookupD, h1, h2, ih]

theorem mem_mapKeys_bumpAt (m : SizeMap) (p q : Path) (v : Nat) :
    q ∈ mapKeys (bumpAt m p v) ↔ q ∈ mapKeys m ∨ q = p := by
  induction m with
  | nil => simp [bumpAt, mapKeys]
  | cons e rest ih =>
    obtain ⟨r, x⟩ := e
    by_cases h1 : r = p
    · subst h1
      simp only [mapKeys] at *
      simp [bumpAt]
      tauto
    · simp only [mapKeys] at *
      simp [bumpAt, h1, ih]
      tauto

theorem lookupD_eq_zero_of_not_mem (m : SizeMap) (q : Path)
    (h : q ∉ mapKeys m) : lookupD m q = 0 := by
  induction m with
  | nil => rfl
  | cons e rest ih =>
    obtain ⟨r, x⟩ := e
    simp only [mapKeys, List.map_cons, List.mem_cons, not_or] at h
    simp only [lookupD]
    rw [if_neg (fun hq : r = q => h.1 hq.symm)]
    exact ih h.2

/-! ### Event-fold lemmas -/

theorem lookupD_foldl_bump (evs : List (Path × Nat)) (m0 : SizeMap) (q : Path) :
    lookupD (evs.foldl (fun m ev => bumpAt m ev.1 ev.2) m0) q =
      lookupD m0 q + evSum q evs := by
  induction evs generalizing m0 with
  | nil => simp [evSum]
  | cons ev rest ih =>
    simp only [List.foldl_cons, evSum, ih, lookupD_bumpAt]
    by_cases h : q = ev.1
    · rw [if_pos h, if_pos h.symm]; omega
    · rw [if_neg h, if_neg (fun h' => h h'.symm)]; omega

theorem mem_mapKeys_foldl_bump (evs : List (Path × Nat)) (m0 : SizeMap) (q : Path) :
    q ∈ mapKeys (evs.foldl (fun m ev => bumpAt m ev.1 ev.2) m0) ↔
      q ∈ mapKeys m0 ∨ q ∈ evs.map (fun ev => ev.1) := by
  induction evs generalizing m0 with
  | nil => simp
  | cons ev rest ih =>
    simp only [List.foldl_cons, ih, mem_mapKeys_bumpAt, List.map_cons,
      List.mem_cons]
    tauto

theorem evSum_append (q : Path) (a b : List (Path × Nat)) :
    evSum q (a ++ b) = evSum q a + evSum q b := by
  induction a with
  | nil => simp [evSum]
  | cons ev rest ih => simp [evSum, ih]; omega

theorem evSum_eq_zero (q : Path) (evs : List (Path × Nat))
    (h : ∀ ev ∈ evs, ev.1 ≠ q) : evSum q evs = 0 := by
  induction evs with
  | nil => rfl
  | cons ev rest ih =>
    simp only [evSum]
    rw [if_neg (h ev (List.mem_cons_self ev rest)), ih
      (fun e he => h e (List.mem_cons_of_mem ev he))]

/-! ### Where walk events land

Every event produced while visiting path `p` targets either `p`'s
parent (`p.dropLast`), or `p` itself and below; events produced by a
directory's entries target the directory itself or lie below one of its
named entries. -/

mutual
theorem walkEvents_target : ∀ (p : Path) (n : FNode) (ev : Path × Nat),
    ev ∈ walkEvents p n → ev.1 = p.dropLast ∨ p <+: ev.1
  | p, .file s, ev, hev => by
    simp only [walkEvents, List.mem_singleton] at hev
    exact Or.inl (by rw [hev])
  | p, .broken, ev, hev => by simp [walkEvents] at hev
  | p, .link t, ev, hev => by
    rcases hres : resolveNode t with _ | m
    · simp [walkEvents, hres] at hev
    · match m with
      | .file s =>
        simp only [walkEvents, hres, List.mem_singleton] at hev
        exact Or.inl (by rw [hev])
      | .dir es =>
        simp only [walkEvents, hres, List.mem_cons, List.mem_singleton,
          List.not_mem_nil, or_false] at hev
        rcases hev with hev | hev
        · exact Or.inr (by rw [hev])
        · exact Or.inl (by rw [hev])
      | .link u => simp [walkEvents, hres] at hev
      | .broken => simp [walkEvents, hres] at hev
  | p, .dir es, ev, hev => by
    simp only [walkEvents, List.mem_cons] at hev
    rcases hev with hev | hev
    · exact Or.inr (by rw [hev])
    · rcases walkEventsEntries_target p es ev hev with h | ⟨e, _, h⟩
      · exact Or.inr (h ▸ List.prefix_refl p)
      · exact Or.inr ((List.prefix_append p [e.1]).trans h)

theorem walkEventsEntries_target : ∀ (p : Path) (es : List (String × FNode))
    (ev : Path × Nat), ev ∈ walkEventsEntries p es →
    ev.1 = p ∨ ∃ e ∈ es, (p ++ [e.1]) <+: ev.1
  | p, [], ev, hev => by simp [walkEventsEntries] at hev
  | p, (name, c) :: rest, ev, hev => by
    simp only [walkEventsEntries, List.mem_append] at hev
    rcases hev with hev | hev
    · rcases walkEvents_target (p ++ [name]) c ev hev with h | h
      · rw [List.dropLast_concat] at h
        exact Or.inl h
      · exact Or.inr ⟨(name, c), List.mem_cons_self _ _, h⟩
    · rcases walkEventsEntries_target p rest ev hev with h | ⟨e, he, h⟩
      · exact Or.inl h
      · exact Or.inr ⟨e, List.mem_cons_of_mem _ he, h⟩
end

theorem dropLast_ne_self_of_ne_nil {p : Path} (hp : p ≠ []) :
    p.dropLast ≠ p := by
  intro h
  have hlen := congrArg List.length h
  rw [List.length_dropLast] at hlen
  have : p.length ≠ 0 := fun h0 => hp (List.length_eq_zero.mp h0)
  omega

theorem append_singleton_ne_self (p : Path) (name : String) :
    p ++ [name] ≠ p := by
  intro h
  have := congrArg List.length h
  simp at this

/-- The events of a child visited at `p ++ [name]` contribute exactly
the child's `localContrib` to the parent path `p`. -/
theorem evSum_parent_walkEvents (p : Path) (name : String) (c : FNode) :
    evSum p (walkEvents (p ++ [name]) c) = localContrib c := by
  match c with
  | .file s =>
    simp [walkEvents, evSum, List.dropLast_concat, localContrib]
  | .broken => simp [walkEvents, evSum, localContrib]
  | .link t =>
    rcases hres : resolveNode t with _ | m
    · simp [walkEvents, evSum, hres, localContrib]
    · match m with
      | .file s =>
        simp [walkEvents, evSum, hres, List.dropLast_concat, localContrib]
      | .dir es =>
        simp [walkEvents, evSum, hres, List.dropLast_concat, localContrib,
          append_singleton_ne_self p name]
      | .link u => simp [walkEvents, evSum, hres, localContrib]
      | .broken => simp [walkEvents, evSum, hres, localContrib]
  | .dir es =>
    have hzero : evSum p (walkEvents (p ++ [name]) (.dir es)) = 0 := by
      apply evSum_eq_zero
      intro ev hev
      simp only [walkEvents, List.mem_cons] at hev
      rcases hev with hev | hev
      · rw [hev]
        exact append_singleton_ne_self p name
      · rcases walkEventsEntries_target (p ++ [name]) es ev hev with h | ⟨e, _, h⟩
        · rw [h]; exact append_singleton_ne_self p name
        · intro hq
          rw [hq] at h
          have := h.length_le
          simp at this
    rw [hzero, localContrib]

/-- A directory's entries leave `localSumEntries` at the directory's
own path. -/
theorem evSum_self_walkEventsEntries (p : Path) (es : List (String × FNode)) :
    evSum p (walkEventsEntries p es) = localSumEntries es := by
  induction es with
  | nil => simp [walkEventsEntries, evSum, localSumEntries]
  | cons e rest ih =>
    obtain ⟨name, c⟩ := e
    simp only [walkEventsEntries, evSum_append, localSumEntries]
    rw [evSum_parent_walkEvents p name c, ih]

/-- A node's own walk events leave `nodeSelfVal` at its (non-root) path. -/
theorem evSum_self_walkEvents (p : Path) (n : FNode) (hp : p ≠ []) :
    evSum p (walkEvents p n) = nodeSelfVal n := by
  have hne := dropLast_ne_self_of_ne_nil hp
  match n with
  | .file s => simp [walkEvents, evSum, nodeSelfVal, hne]
  | .broken => simp [walkEvents, evSum, nodeSelfVal]
  | .link t =>
    rcases hres : resolveNode t with _ | m
    · simp [walkEvents, evSum, hres, nodeSelfVal]
    · match m with
      | .file s => simp [walkEvents, evSum, hres, nodeSelfVal, hne]
      | .dir es => simp [walkEvents, evSum, hres, nodeSelfVal, hne]
      | .link u => simp [walkEvents, evSum, hres, nodeSelfVal]
      | .broken => simp [walkEvents, evSum, hres, nodeSelfVal]
  | .dir es =>
    simp only [walkEvents, evSum, if_pos rfl, nodeSelfVal]
    simp [evSum_self_walkEventsEntries]

/-- Entries none of which is named `name` contribute nothing to any
path strictly below `p ++ [name]` or to `p ++ [name]` itself. -/
theorem evSum_descend_miss (p : Path) (name : String) (rest : Path)
    (es : List (String × FNode)) (hmiss : ∀ e ∈ es, e.1 ≠ name) :
    evSum (p ++ name :: rest) (walkEventsEntries p es) = 0 := by
  apply evSum_eq_zero
  intro ev hev
  rcases walkEventsEntries_target p es ev hev with h | ⟨e, he, h⟩
  · rw [h]
    intro hq
    have := congrArg List.length hq
    simp at this
  · intro hq
    rw [hq] at h
    have hpre : [e.1] <+: name :: rest := (List.prefix_append_right_inj p).mp h
    have : e.1 = name := by
      rcases hpre with ⟨t, ht⟩
      cases ht
      rfl
    exact hmiss e he this

theorem wfEntries_child {es : List (String × FNode)} (hwf : wfEntries es = true) :
    ∀ e ∈ es, wfT e.2 = true := by
  induction es with
  | nil => intro e he; simp at he
  | cons e0 rest ih =>
    obtain ⟨nm, c⟩ := e0
    simp only [wfEntries, Bool.decide_and, Bool.and_eq_true, decide_eq_true_eq] at hwf
    intro e he
    rcases List.mem_cons.mp he with h | h
    · rw [h]; exact hwf.2.2.1
    · exact ih hwf.2.2.2 e h

theorem wfEntries_names {es : List (String × FNode)} (hwf : wfEntries es = true) :
    ∀ e ∈ es, e.1 ≠ "" := by
  induction es with
  | nil => intro e he; simp at he
  | cons e0 rest ih =>
    obtain ⟨nm, c⟩ := e0
    simp only [wfEntries, Bool.decide_and, Bool.and_eq_true, decide_eq_true_eq] at hwf
    intro e he
    rcases List.mem_cons.mp he with h | h
    · rw [h]; exact hwf.1
    · exact ih hwf.2.2.2 e h

/-- A child visited under a different name contributes nothing at or
below `p ++ [name]`. -/
theorem evSum_other_child (p : Path) (nm name : String) (rest : Path)
    (c : FNode) (hne : nm ≠ name) :
    evSum (p ++ name :: rest) (walkEvents (p ++ [nm]) c) = 0 := by
  apply evSum_eq_zero
  intro ev hev
  rcases walkEvents_target (p ++ [nm]) c ev hev with h | h
  · rw [List.dropLast_concat] at h
    rw [h]
    intro hq
    have := congrArg List.length hq
    simp at this
  · intro hq
    rw [hq] at h
    have hpre : [nm] <+: name :: rest := (List.prefix_append_right_inj p).mp h
    rcases hpre with ⟨t, ht⟩
    cases ht
    exact hne rfl

/-- Descending one level: with distinct entry names, only the entry
found under `name` contributes at or below `p ++ [name]`. -/
theorem evSum_descend (p : Path) (name : String) (rest : Path)
    (es : List (String × FNode)) (hwf : wfEntries es = true) :
    evSum (p ++ name :: rest) (walkEventsEntries p es) =
      (match es.find? (fun e => e.1 = name) with
       | some e => evSum (p ++ name :: rest) (walkEvents (p ++ [name]) e.2)
       | none => 0) := by
  induction es with
  | nil => simp [walkEventsEntries, evSum]
  | cons e0 rest0 ih =>
    obtain ⟨nm, c⟩ := e0
    simp only [wfEntries, Bool.decide_and, Bool.and_eq_true, decide_eq_true_eq] at hwf
    by_cases hn : nm = name
    · subst hn
      rw [show walkEventsEntries p ((nm, c) :: rest0) =
          walkEvents (p ++ [nm]) c ++ walkEventsEntries p rest0 from rfl,
        evSum_append,
        List.find?_cons_of_pos _ (by simp)]
      have hmiss : evSum (p ++ nm :: rest) (walkEventsEntries p rest0) = 0 := by
        apply evSum_descend_miss
        intro e he
        have := List.all_eq_true.mp hwf.2.1 e he
        simpa using this
      simp [hmiss]
    · rw [show walkEventsEntries p ((nm, c) :: rest0) =
          walkEvents (p ++ [nm]) c ++ walkEventsEntries p rest0 from rfl,
        evSum_append, evSum_other_child p nm name rest c hn,
        List.find?_cons_of_neg _ (by simp [hn]), ih hwf.2.2.2]
      simp

/-- Navigating to `rel` below a visited node: the walk leaves exactly
`nodeSelfVal` of the node found there. -/
theorem evSum_walkEvents_at_node : ∀ (rel p : Path) (n m : FNode),
    nodeAt? n rel = some m → wfT n = true → p ≠ [] →
    evSum (p ++ rel) (walkEvents p n) = nodeSelfVal m
  | [], p, n, m, hnode, hwf, hp => by
    simp only [nodeAt?, Option.some.injEq] at hnode
    subst hnode
    simp [evSum_self_walkEvents p n hp]
  | name :: rest, p, n, m, hnode, hwf, hp => by
    match n with
    | .file s => simp [nodeAt?] at hnode
    | .broken => simp [nodeAt?] at hnode
    | .link t => simp [nodeAt?] at hnode
    | .dir es =>
      rcases hfind : es.find? (fun e => e.1 = name) with _ | e
      · simp [nodeAt?, hfind] at hnode
      · have hnode' : nodeAt? e.2 rest = some m := by
          simpa [nodeAt?, hfind] using hnode
        have hname : e.1 = name := by
          have := List.find?_some hfind
          simpa using this
        have hmem := List.mem_of_find?_eq_some hfind
        have hwfc : wfT e.2 = true := wfEntries_child (by simpa [wfT] using hwf) e hmem
        have hstep : evSum (p ++ name :: rest) (walkEvents p (.dir es)) =
            evSum (p ++ name :: rest) (walkEvents (p ++ [name]) e.2) := by
          rw [show walkEvents p (.dir es) = (p, 0) :: walkEventsEntries p es from rfl]
          rw [show evSum (p ++ name :: rest) ((p, 0) :: walkEventsEntries p es) =
              (if p = p ++ name :: rest then 0 else 0) +
                evSum (p ++ name :: rest) (walkEventsEntries p es) from rfl]
          rw [evSum_descend p name rest es (by simpa [wfT] using hwf), hfind]
          simp
        rw [hstep, show p ++ name :: rest = (p ++ [name]) ++ rest by simp]
        exact evSum_walkEvents_at_node rest (p ++ [name]) e.2 m hnode' hwfc
          (by simp)

/-- Pass-1 values: the map after the walk holds `nodeSelfVal` at every
path under the root that names a node. -/
theorem lookupD_m1 (R : Path) (es0 : List (String × FNode)) (rel : Path)
    (m : FNode) (hwf : wfEntries es0 = true)
    (hnode : nodeAt? (.dir es0) rel = some m) :
    lookupD (m1Of R es0) (R ++ rel) = nodeSelfVal m := by
  rw [m1Of, lookupD_foldl_bump]
  match rel with
  | [] =>
    simp only [nodeAt?, Option.some.injEq] at hnode
    subst hnode
    simp [lookupD, evSum_self_walkEventsEntries, nodeSelfVal]
  | name :: rest =>
    have hseed : lookupD [(R, 0)] (R ++ name :: rest) = 0 := by
      simp only [lookupD]
      rw [if_neg]
      intro h
      have := congrArg List.length h
      simp at this
    rw [hseed, evSum_descend R name rest es0 hwf]
    rcases hfind : es0.find? (fun e => e.1 = name) with _ | e
    · simp [nodeAt?, hfind] at hnode
    · have hnode' : nodeAt? e.2 rest = some m := by
        simpa [nodeAt?, hfind] using hnode
      have hmem := List.mem_of_find?_eq_some hfind
      have hwfc : wfT e.2 = true := wfEntries_child hwf e hmem
      simp only [hfind]
      rw [show R ++ name :: rest = (R ++ [name]) ++ rest by simp,
        evSum_walkEvents_at_node rest (R ++ [name]) e.2 m hnode' hwfc (by simp)]
      simp

/-! ### Navigation lemmas -/

theorem nodeAt?_cons {n m : FNode} {name : String} {rest : Path}
    (h : nodeAt? n (name :: rest) = some m) :
    ∃ es e, n = .dir es ∧ es.find? (fun x => x.1 = name) = some e ∧
      nodeAt? e.2 rest = some m := by
  match n with
  | .file s => simp [nodeAt?] at h
  | .broken => simp [nodeAt?] at h
  | .link t => simp [nodeAt?] at h
  | .dir es =>
    rcases hfind : es.find? (fun x => x.1 = name) with _ | e
    · simp [nodeAt?, hfind] at h
    · exact ⟨es, e, rfl, hfind, by simpa [nodeAt?, hfind] using h⟩

theorem nav_snoc : ∀ (rel : Path) (n : FNode) (nm : String) (m : FNode),
    nodeAt? n (rel ++ [nm]) = some m ↔
      ∃ es' e, nodeAt? n rel = some (.dir es') ∧
        es'.find? (fun x => x.1 = nm) = some e ∧ e.2 = m
  | [], n, nm, m => by
    constructor
    · intro h
      rcases nodeAt?_cons h with ⟨es, e, hn, hfind, hrest⟩
      subst hn
      simp only [nodeAt?, Option.some.injEq] at hrest
      exact ⟨es, e, rfl, hfind, hrest⟩
    · rintro ⟨es', e, hn, hfind, he⟩
      simp only [nodeAt?, Option.some.injEq] at hn
      subst hn
      simp [nodeAt?, hfind, he]
  | name :: rest, n, nm, m => by
    constructor
    · intro h
      rw [List.cons_append] at h
      rcases nodeAt?_cons h with ⟨es, e, hn, hfind, hrest⟩
      subst hn
      rcases (nav_snoc rest e.2 nm m).mp hrest with ⟨es', e', hnav, hfind', he'⟩
      exact ⟨es', e', by simp [nodeAt?, hfind, hnav], hfind', he'⟩
    · rintro ⟨es', e', hnav, hfind', he'⟩
      rw [List.cons_append]
      rcases nodeAt?_cons hnav with ⟨es, e, hn, hfind, hrest⟩
      subst hn
      have : nodeAt? e.2 (rest ++ [nm]) = some m :=
        (nav_snoc rest e.2 nm m).mpr ⟨es', e', hrest, hfind', he'⟩
      simp [nodeAt?, hfind, this]

theorem wfT_nodeAt : ∀ (rel : Path) (n m : FNode),
    wfT n = true → nodeAt? n rel = some m → wfT m = true
  | [], n, m, hwf, h => by
    simp only [nodeAt?, Option.some.injEq] at h
    exact h ▸ hwf
  | name :: rest, n, m, hwf, h => by
    rcases nodeAt?_cons h with ⟨es, e, hn, hfind, hrest⟩
    subst hn
    have hmem := List.mem_of_find?_eq_some hfind
    exact wfT_nodeAt rest e.2 m (wfEntries_child (by simpa [wfT] using hwf) e hmem) hrest

theorem find?_eq_of_mem_wf {es : List (String × FNode)} {e : String × FNode}
    (hwf : wfEntries es = true) (hmem : e ∈ es) :
    es.find? (fun x => x.1 = e.1) = some e := by
  induction es with
  | nil => simp at hmem
  | cons e0 rest ih =>
    obtain ⟨nm, c⟩ := e0
    simp only [wfEntries, Bool.decide_and, Bool.and_eq_true, decide_eq_true_eq] at hwf
    rcases List.mem_cons.mp hmem with h | h
    · subst h
      exact List.find?_cons_of_pos _ (by simp)
    · have hne : e.1 ≠ nm := by
        have := List.all_eq_true.mp hwf.2.1 e h
        simpa using this
      rw [List.find?_cons_of_neg _ (by simpa using fun hx : nm = e.1 => hne hx.symm)]
      exact ih hwf.2.2.2 h

/-! ### `dirSize` decomposition -/

theorem dirSize_resolve_none : ∀ {n : FNode}, resolveNode n = none → dirSize n = 0
  | .link t, h => by
    simp only [resolveNode] at h
    simp [dirSize, dirSize_resolve_none h]
  | .broken, _ => rfl
  | .file _, h => by simp [resolveNode] at h
  | .dir _, h => by simp [resolveNode] at h

theorem dirSize_resolve_some : ∀ {n m : FNode}, resolveNode n = some m →
    dirSize n = dirSize m
  | .link t, m, h => by
    simp only [resolveNode] at h
    simp [dirSize, dirSize_resolve_some h]
  | .broken, m, h => by simp [resolveNode] at h
  | .file s, m, h => by
    simp only [resolveNode, Option.some.injEq] at h
    rw [← h]
  | .dir es, m, h => by
    simp only [resolveNode, Option.some.injEq] at h
    rw [← h]

theorem resolveNode_ne_link : ∀ (n u : FNode), resolveNode n ≠ some (.link u)
  | .link t, u => by
    simp only [resolveNode]
    exact resolveNode_ne_link t u
  | .broken, u => by simp [resolveNode]
  | .file s, u => by simp [resolveNode]
  | .dir es, u => by simp [resolveNode]

theorem resolveNode_ne_broken : ∀ (n : FNode), resolveNode n ≠ some .broken
  | .link t => by
    simp only [resolveNode]
    exact resolveNode_ne_broken t
  | .broken => by simp [resolveNode]
  | .file s => by simp [resolveNode]
  | .dir es => by simp [resolveNode]

/-- Split an entry's contribution to `dirSize` into its pass-1 local
contribution plus, for real subdirectories, the recursive size that
pass 2 rolls up. -/
theorem dirSize_entry_split (c : FNode) :
    dirSize c = localContrib c + (if isRealDir c then dirSize c else 0) := by
  match c with
  | .file s => simp [dirSize, localContrib, isRealDir]
  | .broken => simp [dirSize, localContrib, isRealDir]
  | .dir es' => simp [localContrib, isRealDir]
  | .link t =>
    rcases hres : resolveNode t with _ | m
    · simp [dirSize, localContrib, isRealDir, hres, dirSize_resolve_none hres]
    · match m with
      | .file s =>
        have : dirSize t = s := by simpa [dirSize] using dirSize_resolve_some hres
        simp [dirSize, localContrib, isRealDir, hres, this]
      | .dir es' =>
        have : dirSize t = dirSizeEntries es' := by
          simpa [dirSize] using dirSize_resolve_some hres
        simp [dirSize, localContrib, isRealDir, hres, this]
      | .link u => exact absurd hres (resolveNode_ne_link t u)
      | .broken => exact absurd hres (resolveNode_ne_broken t)

/-- Split a directory's full recursive size into the part pass 1 stores
in its own map slot and its real subdirectories' recursive sizes. -/
theorem dirSizeEntries_decomp (es : List (String × FNode)) :
    dirSizeEntries es = localSumEntries es +
      ((es.filter (fun e => isRealDir e.2)).map (fun e => dirSize e.2)).sum := by
  induction es with
  | nil => simp [dirSizeEntries, localSumEntries]
  | cons e rest ih =>
    obtain ⟨nm, c⟩ := e
    rw [show dirSizeEntries ((nm, c) :: rest) = dirSize c + dirSizeEntries rest
      from rfl, show localSumEntries ((nm, c) :: rest) =
      localContrib c + localSumEntries rest from rfl, ih, List.filter_cons]
    by_cases hc : isRealDir c
    · rw [if_pos (by simpa using hc), dirSize_entry_split c, if_pos hc]
      simp
      omega
    · rw [if_neg (by simpa using hc)]
      have := dirSize_entry_split c
      rw [if_neg hc] at this
      omega

/-! ### Keys and terminals of pass 1 -/

theorem walkEvents_mem_entries (p : Path) (es : List (String × FNode))
    {e : String × FNode} (hmem : e ∈ es) :
    ∀ ev ∈ walkEvents (p ++ [e.1]) e.2, ev ∈ walkEventsEntries p es := by
  induction es with
  | nil => simp at hmem
  | cons e0 rest ih =>
    intro ev hev
    have hunfold : walkEventsEntries p (e0 :: rest) =
        walkEvents (p ++ [e0.1]) e0.2 ++ walkEventsEntries p rest := rfl
    rcases List.mem_cons.mp hmem with h | h
    · rw [hunfold, ← h]
      exact List.mem_append_left _ hev
    · rw [hunfold]
      exact List.mem_append_right _ (ih h ev hev)

theorem walkEvents_navigate : ∀ (rel : Path) (p : Path) (n m : FNode),
    nodeAt? n rel = some m →
    ∀ ev ∈ walkEvents (p ++ rel) m, ev ∈ walkEvents p n
  | [], p, n, m, hnav, ev, hev => by
    simp only [nodeAt?, Option.some.injEq] at hnav
    subst hnav
    simpa using hev
  | name :: rest, p, n, m, hnav, ev, hev => by
    rcases nodeAt?_cons hnav with ⟨es, e, hn, hfind, hrest⟩
    subst hn
    have hname : e.1 = name := by simpa using List.find?_some hfind
    have hmem := List.mem_of_find?_eq_some hfind
    rw [show p ++ name :: rest = (p ++ [name]) ++ rest by simp] at hev
    have h1 : ev ∈ walkEvents (p ++ [name]) e.2 :=
      walkEvents_navigate rest (p ++ [name]) e.2 m hrest ev hev
    rw [← hname] at h1
    exact List.mem_cons_of_mem _ (walkEvents_mem_entries p es hmem ev h1)

theorem terminals_mem_entries (p : Path) (es : List (String × FNode))
    {e : String × FNode} (hmem : e ∈ es) :
    ∀ q ∈ terminals (p ++ [e.1]) e.2, q ∈ terminalsEntries p es := by
  induction es with
  | nil => simp at hmem
  | cons e0 rest ih =>
    intro q hq
    have hunfold : terminalsEntries p (e0 :: rest) =
        terminals (p ++ [e0.1]) e0.2 ++ terminalsEntries p rest := rfl
    rcases List.mem_cons.mp hmem with h | h
    · rw [hunfold, ← h]
      exact List.mem_append_left _ hq
    · rw [hunfold]
      exact List.mem_append_right _ (ih h q hq)

theorem terminals_navigate : ∀ (rel : Path) (p : Path) (n m : FNode),
    nodeAt? n rel = some m →
    ∀ q ∈ terminals (p ++ rel) m, q ∈ terminals p n
  | [], p, n, m, hnav, q, hq => by
    simp only [nodeAt?, Option.some.injEq] at hnav
    subst hnav
    simpa using hq
  | name :: rest, p, n, m, hnav, q, hq => by
    rcases nodeAt?_cons hnav with ⟨es, e, hn, hfind, hrest⟩
    subst hn
    have hname : e.1 = name := by simpa using List.find?_some hfind
    have hmem := List.mem_of_find?_eq_some hfind
    rw [show p ++ name :: rest = (p ++ [name]) ++ rest by simp] at hq
    have h1 : q ∈ terminals (p ++ [name]) e.2 :=
      terminals_navigate rest (p ++ [name]) e.2 m hrest q hq
    rw [← hname] at h1
    exact terminals_mem_entries p es hmem q h1

/-- Every key of the pass-1 map lies at or below the root. -/
theorem m1_keys_under (R : Path) (es0 : List (String × FNode)) (q : Path)
    (hq : q ∈ mapKeys (m1Of R es0)) : R <+: q := by
  rw [m1Of, mem_mapKeys_foldl_bump] at hq
  rcases hq with hq | hq
  · have : q = R := by simpa [mapKeys] using hq
    exact this ▸ List.prefix_refl q
  · rcases List.mem_map.mp hq with ⟨ev, hev, hq'⟩
    rcases walkEventsEntries_target R es0 ev hev with h | ⟨e, _, h⟩
    · exact (hq' ▸ h) ▸ List.prefix_refl R
    · exact (List.prefix_append R [e.1]).trans (hq' ▸ h)

/-- Directory-or-resolved-directory-symlink children of visited
directories are keys of the pass-1 map. -/
theorem m1_keys_child (R : Path) (es0 : List (String × FNode))
    (rel : Path) (es : List (String × FNode))
    (hnav : nodeAt? (.dir es0) rel = some (.dir es)) {e : String × FNode}
    (hmem : e ∈ es) (hde : (isRealDir e.2 || isLinkDir e.2) = true) :
    R ++ rel ++ [e.1] ∈ mapKeys (m1Of R es0) := by
  obtain ⟨nm, c⟩ := e
  simp only at hde
  have hev : ∃ v, (R ++ rel ++ [nm], v) ∈ walkEvents (R ++ rel ++ [nm]) c := by
    match c with
    | .dir es'' => exact ⟨0, by simp [walkEvents]⟩
    | .link t =>
      rcases hres : resolveNode t with _ | m
      · simp [isRealDir, isLinkDir, hres] at hde
      · match m with
        | .dir es'' => exact ⟨dirSizeEntries es'', by simp [walkEvents, hres]⟩
        | .file s => simp [isRealDir, isLinkDir, hres] at hde
        | .link u => exact absurd hres (resolveNode_ne_link t u)
        | .broken => exact absurd hres (resolveNode_ne_broken t)
    | .file s => simp [isRealDir, isLinkDir] at hde
    | .broken => simp [isRealDir, isLinkDir] at hde
  rcases hev with ⟨v, hev⟩
  have h1 : (R ++ rel ++ [nm], v) ∈ walkEventsEntries (R ++ rel) es :=
    walkEvents_mem_entries (R ++ rel) es hmem _ hev
  have h2 : (R ++ rel ++ [nm], v) ∈ walkEvents R (.dir es0) := by
    apply walkEvents_navigate rel R (.dir es0) (.dir es) hnav
    simp only [walkEvents]
    exact List.mem_cons_of_mem _ h1
  have h3 : (R ++ rel ++ [nm], v) ∈ walkEventsEntries R es0 := by
    rcases List.mem_cons.mp h2 with h | h
    · exfalso
      have := congrArg (fun x : Path × Nat => x.1.length) h
      simp at this
    · exact h
  rw [m1Of, mem_mapKeys_foldl_bump]
  exact Or.inr (List.mem_map.mpr ⟨_, h3, rfl⟩)

/-- Every event target is the path of a visited real directory or of a
visited symlink-to-directory. -/
theorem walkEventsEntries_key_node (R : Path) (es0 : List (String × FNode))
    (hwf : wfEntries es0 = true) :
    ∀ (es' : List (String × FNode)) (rel0 : Path) (es : List (String × FNode)),
      nodeAt? (.dir es0) rel0 = some (.dir es) →
      (∀ e ∈ es', e ∈ es) →
      ∀ ev ∈ walkEventsEntries (R ++ rel0) es',
        ∃ rel n, ev.1 = R ++ rel ∧ nodeAt? (.dir es0) rel = some n ∧
          (isRealDir n || isLinkDir n) = true
  | [], rel0, es, hnav, hsub, ev, hev => by simp [walkEventsEntries] at hev
  | (nm, .file s) :: rest, rel0, es, hnav, hsub, ev, hev => by
    rcases List.mem_append.mp hev with hev | hev
    · refine ⟨rel0, .dir es, ?_, hnav, by simp [isRealDir]⟩
      simp only [walkEvents, List.mem_singleton] at hev
      rw [hev, List.dropLast_concat]
    · exact walkEventsEntries_key_node R es0 hwf rest rel0 es hnav
        (fun e he => hsub e (List.mem_cons_of_mem _ he)) ev hev
  | (nm, .broken) :: rest, rel0, es, hnav, hsub, ev, hev => by
    rcases List.mem_append.mp hev with hev | hev
    · simp [walkEvents] at hev
    · exact walkEventsEntries_key_node R es0 hwf rest rel0 es hnav
        (fun e he => hsub e (List.mem_cons_of_mem _ he)) ev hev
  | (nm, .link t) :: rest, rel0, es, hnav, hsub, ev, hev => by
    rcases List.mem_append.mp hev with hev | hev
    · have hwfes : wfEntries es = true := by
        have := wfT_nodeAt rel0 (.dir es0) (.dir es) (by simpa [wfT] using hwf) hnav
        simpa [wfT] using this
      have hmemh : ((nm, FNode.link t) : String × FNode) ∈ es :=
        hsub _ (List.mem_cons_self _ _)
      have hfind : es.find? (fun x => x.1 = nm) = some (nm, .link t) :=
        find?_eq_of_mem_wf hwfes hmemh
      have hnavc : nodeAt? (.dir es0) (rel0 ++ [nm]) = some (.link t) :=
        (nav_snoc rel0 (.dir es0) nm (.link t)).mpr ⟨es, (nm, .link t), hnav, hfind, rfl⟩
      rcases hres : resolveNode t with _ | m
      · simp [walkEvents, hres] at hev
      · match m, hres with
        | .file s, hres =>
          refine ⟨rel0, .dir es, ?_, hnav, by simp [isRealDir]⟩
          simp only [walkEvents, hres, List.mem_singleton] at hev
          rw [hev, List.dropLast_concat]
        | .dir es'', hres =>
          simp only [walkEvents, hres, List.mem_cons, List.mem_singleton,
            List.not_mem_nil, or_false] at hev
          rcases hev with hev | hev
          · refine ⟨rel0 ++ [nm], .link t, ?_, hnavc, ?_⟩
            · rw [hev]; simp
            · simp [isLinkDir, hres]
          · refine ⟨rel0, .dir es, ?_, hnav, by simp [isRealDir]⟩
            rw [hev, List.dropLast_concat]
        | .link u, hres => exact absurd hres (resolveNode_ne_link t u)
        | .broken, hres => exact absurd hres (resolveNode_ne_broken t)
    · exact walkEventsEntries_key_node R es0 hwf rest rel0 es hnav
        (fun e he => hsub e (List.mem_cons_of_mem _ he)) ev hev
  | (nm, .dir es'') :: rest, rel0, es, hnav, hsub, ev, hev => by
    rcases List.mem_append.mp hev with hev | hev
    · have hwfes : wfEntries es = true := by
        have := wfT_nodeAt rel0 (.dir es0) (.dir es) (by simpa [wfT] using hwf) hnav
        simpa [wfT] using this
      have hmemh : ((nm, FNode.dir es'') : String × FNode) ∈ es :=
        hsub _ (List.mem_cons_self _ _)
      have hfind : es.find? (fun x => x.1 = nm) = some (nm, .dir es'') :=
        find?_eq_of_mem_wf hwfes hmemh
      have hnavc : nodeAt? (.dir es0) (rel0 ++ [nm]) = some (.dir es'') :=
        (nav_snoc rel0 (.dir es0) nm (.dir es'')).mpr
          ⟨es, (nm, .dir es''), hnav, hfind, rfl⟩
      simp only [walkEvents, List.mem_cons] at hev
      rcases hev with hev | hev
      · refine ⟨rel0 ++ [nm], .dir es'', ?_, hnavc, by simp [isRealDir]⟩
        rw [hev]; simp
      · exact walkEventsEntries_key_node R es0 hwf es'' (rel0 ++ [nm]) es''
          hnavc (fun e he => he) ev
          (by rw [show R ++ (rel0 ++ [nm]) = (R ++ rel0) ++ [nm] by simp]; exact hev)
    · exact walkEventsEntries_key_node R es0 hwf rest rel0 es hnav
        (fun e he => hsub e (List.mem_cons_of_mem _ he)) ev hev
termination_by es' => sizeOf es'
decreasing_by
  all_goals simp_wf
  all_goals omega

/-- Every terminal path names a visited symlink whose target resolved
to a directory. -/
theorem terminalsEntries_node (R : Path) (es0 : List (String × FNode))
    (hwf : wfEntries es0 = true) :
    ∀ (es' : List (String × FNode)) (rel0 : Path) (es : List (String × FNode)),
      nodeAt? (.dir es0) rel0 = some (.dir es) →
      (∀ e ∈ es', e ∈ es) →
      ∀ q ∈ terminalsEntries (R ++ rel0) es',
        ∃ rel t, q = R ++ rel ∧ nodeAt? (.dir es0) rel = some (.link t) ∧
          isLinkDir (.link t) = true
  | [], rel0, es, hnav, hsub, q, hq => by simp [terminalsEntries] at hq
  | (nm, .file s) :: rest, rel0, es, hnav, hsub, q, hq => by
    rcases List.mem_append.mp hq with hq | hq
    · simp [terminals] at hq
    · exact terminalsEntries_node R es0 hwf rest rel0 es hnav
        (fun e he => hsub e (List.mem_cons_of_mem _ he)) q hq
  | (nm, .broken) :: rest, rel0, es, hnav, hsub, q, hq => by
    rcases List.mem_append.mp hq with hq | hq
    · simp [terminals] at hq
    · exact terminalsEntries_node R es0 hwf rest rel0 es hnav
        (fun e he => hsub e (List.mem_cons_of_mem _ he)) q hq
  | (nm, .link t) :: rest, rel0, es, hnav, hsub, q, hq => by
    rcases List.mem_append.mp hq with hq | hq
    · have hwfes : wfEntries es = true := by
        have := wfT_nodeAt rel0 (.dir es0) (.dir es) (by simpa [wfT] using hwf) hnav
        simpa [wfT] using this
      have hmemh : ((nm, FNode.link t) : String × FNode) ∈ es :=
        hsub _ (List.mem_cons_self _ _)
      have hfind : es.find? (fun x => x.1 = nm) = some (nm, .link t) :=
        find?_eq_of_mem_wf hwfes hmemh
      have hnavc : nodeAt? (.dir es0) (rel0 ++ [nm]) = some (.link t) :=
        (nav_snoc rel0 (.dir es0) nm (.link t)).mpr ⟨es, (nm, .link t), hnav, hfind, rfl⟩
      rcases hres : resolveNode t with _ | m
      · simp [terminals, hres] at hq
      · match m, hres with
        | .file s, hres => simp [terminals, hres] at hq
        | .dir es'', hres =>
          simp only [terminals, hres, List.mem_singleton] at hq
          refine ⟨rel0 ++ [nm], t, by rw [hq]; simp, hnavc, by simp [isLinkDir, hres]⟩
        | .link u, hres => exact absurd hres (resolveNode_ne_link t u)
        | .broken, hres => exact absurd hres (resolveNode_ne_broken t)
    · exact terminalsEntries_node R es0 hwf rest rel0 es hnav
        (fun e he => hsub e (List.mem_cons_of_mem _ he)) q hq
  | (nm, .dir es'') :: rest, rel0, es, hnav, hsub, q, hq => by
    rcases List.mem_append.mp hq with hq | hq
    · have hwfes : wfEntries es = true := by
        have := wfT_nodeAt rel0 (.dir es0) (.dir es) (by simpa [wfT] using hwf) hnav
        simpa [wfT] using this
      have hmemh : ((nm, FNode.dir es'') : String × FNode) ∈ es :=
        hsub _ (List.mem_cons_self _ _)
      have hfind : es.find? (fun x => x.1 = nm) = some (nm, .dir es'') :=
        find?_eq_of_mem_wf hwfes hmemh
      have hnavc : nodeAt? (.dir es0) (rel0 ++ [nm]) = some (.dir es'') :=
        (nav_snoc rel0 (.dir es0) nm (.dir es'')).mpr
          ⟨es, (nm, .dir es''), hnav, hfind, rfl⟩
      exact terminalsEntries_node R es0 hwf es'' (rel0 ++ [nm]) es''
        hnavc (fun e he => he) q
        (by rw [show R ++ (rel0 ++ [nm]) = (R ++ rel0) ++ [nm] by simp]
            simpa [terminals] using hq)
    · exact terminalsEntries_node R es0 hwf rest rel0 es hnav
        (fun e he => hsub e (List.mem_cons_of_mem _ he)) q hq
termination_by es' => sizeOf es'
decreasing_by
  all_goals simp_wf
  all_goals omega

/-- Every key of the pass-1 map under the root names a visited real
directory or symlink-to-directory node. -/
theorem m1_keys_node (R : Path) (es0 : List (String × FNode))
    (hwf : wfEntries es0 = true) (q : Path)
    (hq : q ∈ mapKeys (m1Of R es0)) :
    ∃ rel n, q = R ++ rel ∧ nodeAt? (.dir es0) rel = some n ∧
      (isRealDir n || isLinkDir n) = true := by
  rw [m1Of, mem_mapKeys_foldl_bump] at hq
  rcases hq with hq | hq
  · have hqR : q = R := by simpa [mapKeys] using hq
    exact ⟨[], .dir es0, by simp [hqR], rfl, by simp [isRealDir]⟩
  · rcases List.mem_map.mp hq with ⟨ev, hev, hq'⟩
    rcases walkEventsEntries_key_node R es0 hwf es0 [] es0 rfl (fun e he => he) ev
      (by simpa using hev) with ⟨rel, n, h1, h2, h3⟩
    exact ⟨rel, n, hq' ▸ h1, h2, h3⟩

/-- Conversely, every visited symlink-to-directory path is terminal. -/
theorem linkdir_mem_terminals (R : Path) (es0 : List (String × FNode))
    (rel : Path) (t : FNode)
    (hnav : nodeAt? (.dir es0) rel = some (.link t))
    (hld : isLinkDir (.link t) = true) :
    R ++ rel ∈ terminalsEntries R es0 := by
  have h0 : R ++ rel ∈ terminals (R ++ rel) (.link t) := by
    rcases hres : resolveNode t with _ | m
    · simp [isLinkDir, hres] at hld
    · match m, hres with
      | .dir es'', hres => simp [terminals, hres]
      | .file s, hres => simp [isLinkDir, hres] at hld
      | .link u, hres => exact absurd hres (resolveNode_ne_link t u)
      | .broken, hres => exact absurd hres (resolveNode_ne_broken t)
  have h1 := terminals_navigate rel R (.dir es0) (.link t) hnav _ h0
  simpa [terminals] using h1

/-! ### The pass-2 processing order -/

theorem insertDesc_perm (k : Path) (l : List Path) :
    List.Perm (insertDesc k l) (k :: l) := by
  induction l with
  | nil => rfl
  | cons d rest ih =>
    by_cases h : pathStrLen d ≤ pathStrLen k
    · simp [insertDesc, h]
    · simp only [insertDesc, if_neg h]
      exact (ih.cons d).trans (List.Perm.swap k d rest)

theorem sortKeysDesc_perm (l : List Path) : List.Perm (sortKeysDesc l) l := by
  induction l with
  | nil => rfl
  | cons d rest ih => exact (insertDesc_perm d _).trans (ih.cons d)

theorem insertDesc_pairwise (k : Path) (l : List Path)
    (h : l.Pairwise (fun a b => pathStrLen b ≤ pathStrLen a)) :
    (insertDesc k l).Pairwise (fun a b => pathStrLen b ≤ pathStrLen a) := by
  induction l with
  | nil => simp [insertDesc]
  | cons d rest ih =>
    rcases List.pairwise_cons.mp h with ⟨hd, hrest⟩
    by_cases hk : pathStrLen d ≤ pathStrLen k
    · rw [insertDesc, if_pos hk]
      refine List.pairwise_cons.mpr ⟨?_, h⟩
      intro x hx
      rcases List.mem_cons.mp hx with hx | hx
      · exact hx ▸ hk
      · exact (hd x hx).trans hk
    · rw [insertDesc, if_neg hk]
      refine List.pairwise_cons.mpr ⟨?_, ih hrest⟩
      intro x hx
      have hx' : x ∈ k :: rest := (insertDesc_perm k rest).mem_iff.mp hx
      rcases List.mem_cons.mp hx' with hx' | hx'
      · subst hx'; omega
      · exact hd x hx'

theorem sortKeysDesc_pairwise (l : List Path) :
    (sortKeysDesc l).Pairwise (fun a b => pathStrLen b ≤ pathStrLen a) := by
  induction l with
  | nil => simp [sortKeysDesc]
  | cons d rest ih => exact insertDesc_pairwise d _ ih

theorem mapKeys_bumpAt (m : SizeMap) (p : Path) (v : Nat) :
    mapKeys (bumpAt m p v) =
      if p ∈ mapKeys m then mapKeys m else mapKeys m ++ [p] := by
  induction m with
  | nil => simp [bumpAt, mapKeys]
  | cons e rest ih =>
    obtain ⟨r, x⟩ := e
    by_cases h1 : r = p
    · subst h1
      simp [bumpAt, mapKeys]
    · have h1' : ¬ (p = r) := fun h => h1 h.symm
      simp only [bumpAt, if_neg h1, mapKeys, List.map_cons]
      simp only [mapKeys] at ih
      rw [ih]
      by_cases h2 : p ∈ rest.map (fun e => e.1)
      · simp [h2, h1']
      · simp [h2, h1']

theorem nodup_mapKeys_bumpAt (m : SizeMap) (p : Path) (v : Nat)
    (h : (mapKeys m).Nodup) : (mapKeys (bumpAt m p v)).Nodup := by
  rw [mapKeys_bumpAt]
  by_cases hp : p ∈ mapKeys m
  · simpa [hp]
  · simpa [hp, List.nodup_append] using h

theorem nodup_mapKeys_foldl_bump (evs : List (Path × Nat)) (m0 : SizeMap)
    (h : (mapKeys m0).Nodup) :
    (mapKeys (evs.foldl (fun m ev => bumpAt m ev.1 ev.2) m0)).Nodup := by
  induction evs generalizing m0 with
  | nil => simpa
  | cons ev rest ih => exact ih _ (nodup_mapKeys_bumpAt m0 ev.1 ev.2 h)

theorem nodup_mapKeys_m1 (R : Path) (es0 : List (String × FNode)) :
    (mapKeys (m1Of R es0)).Nodup := by
  rw [m1Of]
  exact nodup_mapKeys_foldl_bump _ _ (by simp [mapKeys])

theorem dropLast_eq_self_iff (p : Path) : p.dropLast = p ↔ p = [] := by
  constructor
  · intro h
    by_contra hne
    exact dropLast_ne_self_of_ne_nil hne h
  · intro h; subst h; rfl

theorem pathStrLen_append_singleton (d : Path) (nm : String) (h : nm ≠ "") :
    pathStrLen d < pathStrLen (d ++ [nm]) := by
  have hlen : 1 ≤ nm.length := by
    have : nm.length ≠ 0 := fun h0 => h (by
      cases nm with
      | mk l =>
        simp only [String.length, List.length_eq_zero] at h0
        simp [h0])
    omega
  match d with
  | [] => simp [pathStrLen]; omega
  | a :: rest =>
    simp [pathStrLen]
    omega

/-! ### Pass 2: propagation invariant -/

/-- The invariant maintained while pass 2 processes keys: each visited
directory's slot holds its pass-1 value plus the recursive sizes of
exactly those real subdirectories whose keys have been processed
(`P`); symlink slots never change. -/
def propInv (R : Path) (es0 : List (String × FNode)) (P : List Path)
    (m : SizeMap) : Prop :=
  (∀ rel es', nodeAt? (.dir es0) rel = some (.dir es') →
    lookupD m (R ++ rel) = lookupD (m1Of R es0) (R ++ rel) +
      ((es'.filter (fun e => isRealDir e.2 && decide ((R ++ rel ++ [e.1]) ∈ P))).map
        (fun e => dirSize e.2)).sum) ∧
  (∀ rel t, nodeAt? (.dir es0) rel = some (.link t) →
    lookupD m (R ++ rel) = lookupD (m1Of R es0) (R ++ rel))

theorem propInv_base (R : Path) (es0 : List (String × FNode)) :
    propInv R es0 [] (m1Of R es0) := by
  constructor
  · intro rel es' _
    have : es'.filter (fun e => isRealDir e.2 && decide ((R ++ rel ++ [e.1]) ∈ ([] : List Path))) = [] := by
      apply List.filter_eq_nil_iff.mpr
      intro e _
      simp
    simp [this]
  · intro rel t _
    rfl

theorem sum_filter_gain (q d : Path) (P : List Path)
    (es : List (String × FNode)) (hwfes : wfEntries es = true)
    {estar : String × FNode} (hmem : estar ∈ es) (hname : q ++ [estar.1] = d)
    (hrd : isRealDir estar.2 = true) (hdP : d ∉ P) :
    ((es.filter (fun e => isRealDir e.2 && decide (q ++ [e.1] ∈ P ∨ q ++ [e.1] = d))).map
      (fun e => dirSize e.2)).sum =
    ((es.filter (fun e => isRealDir e.2 && decide (q ++ [e.1] ∈ P))).map
      (fun e => dirSize e.2)).sum + dirSize estar.2 := by
  induction es with
  | nil => simp at hmem
  | cons e0 rest ih =>
    obtain ⟨nm, c⟩ := e0
    simp only [wfEntries, Bool.decide_and, Bool.and_eq_true, decide_eq_true_eq] at hwfes
    rcases List.mem_cons.mp hmem with h | h
    · subst h
      simp only at hname hrd
      have hnotP : ¬ ((q ++ [nm]) ∈ P) := fun hp => hdP (hname ▸ hp)
      rw [List.filter_cons, List.filter_cons,
        if_pos (by simp [hrd, hname]), if_neg (by simp [hrd, hnotP])]
      have hrest0 : ∀ e ∈ rest, (isRealDir e.2 &&
          decide (q ++ [e.1] ∈ P ∨ q ++ [e.1] = d)) =
          (isRealDir e.2 && decide (q ++ [e.1] ∈ P)) := by
        intro e he
        have hne : e.1 ≠ nm := by
          simpa using List.all_eq_true.mp hwfes.2.1 e he
        have hnd : ¬ (q ++ [e.1] = d) := by
          intro hx
          rw [← hname] at hx
          exact hne (by simpa using hx)
        simp [hnd]
      rw [List.filter_congr hrest0]
      simp
      omega
    · have hne : estar.1 ≠ nm := by
        simpa using List.all_eq_true.mp hwfes.2.1 estar h
      have hnd : ¬ (q ++ [nm] = d) := by
        intro hx
        rw [← hname] at hx
        have : nm = estar.1 := by simpa using hx
        exact hne this.symm
      rw [List.filter_cons, List.filter_cons]
      by_cases hc1 : isRealDir c = true
      · by_cases hc2 : (q ++ [nm]) ∈ P
        · rw [if_pos (by simp [hc1, hc2]), if_pos (by simp [hc1, hc2])]
          simp only [List.map_cons, List.sum_cons]
          rw [ih hwfes.2.2.2 h]
          omega
        · rw [if_neg (by simp [hc1, hc2, hnd]), if_neg (by simp [hc1, hc2])]
          exact ih hwfes.2.2.2 h
      · rw [if_neg (by simp [hc1]), if_neg (by simp [hc1])]
        exact ih hwfes.2.2.2 h

/-- Appending a processed path that is no real-directory child key of
any visited directory leaves the invariant untouched. -/
theorem propInv_extend (R : Path) (es0 : List (String × FNode)) (P : List Path)
    (m : SizeMap) (x : Path)
    (hx : ∀ rel es', nodeAt? (.dir es0) rel = some (.dir es') →
        ∀ e ∈ es', isRealDir e.2 = true → R ++ rel ++ [e.1] ≠ x)
    (hinv : propInv R es0 P m) : propInv R es0 (P ++ [x]) m := by
  obtain ⟨hdir, hlink⟩ := hinv
  refine ⟨?_, hlink⟩
  intro rel es' hnav
  rw [hdir rel es' hnav]
  have hcongr : ∀ e ∈ es', (isRealDir e.2 &&
      decide ((R ++ rel ++ [e.1]) ∈ P ++ [x])) =
      (isRealDir e.2 && decide ((R ++ rel ++ [e.1]) ∈ P))  := by
    intro e he
    rcases hb : isRealDir e.2 with _ | _
    · simp
    · have hne := hx rel es' hnav e he hb
      simp only [Bool.true_and]
      congr 1
      simp only [List.mem_append, List.mem_singleton, eq_iff_iff]
      constructor
      · rintro (h | h)
        · exact h
        · exact absurd h hne
      · exact Or.inl
  rw [List.filter_congr hcongr]

/-- Processing a real directory key `d` (adding its total to its
parent slot) re-establishes the invariant with `d` marked processed,
provided `d`'s slot already holds its full recursive size. -/
theorem propInv_bump (R : Path) (es0 : List (String × FNode))
    (hwf : wfEntries es0 = true) (P : List Path) (m : SizeMap)
    (d reld : Path) (es_d : List (String × FNode))
    (hdeq : d = R ++ reld)
    (hnavd : nodeAt? (.dir es0) reld = some (.dir es_d))
    (hdP : d ∉ P) (hdne : d ≠ [])
    (hinv : propInv R es0 P m)
    (hvd : lookupD m d = dirSize (.dir es_d)) :
    propInv R es0 (P ++ [d]) (bumpAt m d.dropLast (lookupD m d)) := by
  obtain ⟨hdir, hlink⟩ := hinv
  constructor
  · intro rel' es'' hnav'
    rw [lookupD_bumpAt]
    by_cases hq : R ++ rel' = d.dropLast
    · -- the parent of `d` gains `d`'s recursive size
      have hlst : d.dropLast ++ [d.getLast hdne] = d := List.dropLast_append_getLast hdne
      have hreldeq : reld = rel' ++ [d.getLast hdne] := by
        have h1 : R ++ reld = R ++ (rel' ++ [d.getLast hdne]) := by
          rw [← hdeq,
            show R ++ (rel' ++ [d.getLast hdne]) = (R ++ rel') ++ [d.getLast hdne] by simp,
            hq, hlst]
        exact List.append_cancel_left h1
      have hnavd' : nodeAt? (.dir es0) (rel' ++ [d.getLast hdne]) = some (.dir es_d) := by
        rw [← hreldeq]; exact hnavd
      rcases (nav_snoc rel' (.dir es0) (d.getLast hdne) (.dir es_d)).mp hnavd' with
        ⟨esp, ep, hnavp, hfindp, hep2⟩
      have hesp : es'' = esp := by
        rw [hnav'] at hnavp
        cases hnavp
        rfl
      subst hesp
      have hepname : ep.1 = d.getLast hdne := by
        simpa using List.find?_some hfindp
      have hepmem : ep ∈ es'' := List.mem_of_find?_eq_some hfindp
      have heprd : isRealDir ep.2 = true := by rw [hep2]; rfl
      have hwfes'' : wfEntries es'' = true := by
        have := wfT_nodeAt rel' (.dir es0) (.dir es'') (by simpa [wfT] using hwf) hnav'
        simpa [wfT] using this
      have hepkey : (R ++ rel') ++ [ep.1] = d := by
        rw [hepname, hq, hlst]
      rw [if_pos hq]
      have hcongr : ∀ e ∈ es'', (isRealDir e.2 &&
          decide ((R ++ rel' ++ [e.1]) ∈ P ++ [d])) =
          (isRealDir e.2 && decide ((R ++ rel' ++ [e.1]) ∈ P ∨ (R ++ rel' ++ [e.1]) = d)) := by
        intro e _
        congr 1
        simp [List.mem_append]
      rw [List.filter_congr hcongr,
        sum_filter_gain (R ++ rel') d P es'' hwfes'' hepmem hepkey heprd hdP,
        hdir rel' es'' hnav', hvd, hep2]
      simp [dirSize]
      omega
    · rw [if_neg hq, hdir rel' es'' hnav']
      have hcongr : ∀ e ∈ es'', (isRealDir e.2 &&
          decide ((R ++ rel' ++ [e.1]) ∈ P ++ [d])) =
          (isRealDir e.2 && decide ((R ++ rel' ++ [e.1]) ∈ P)) := by
        intro e _
        congr 1
        have hne : ¬ ((R ++ rel' ++ [e.1]) = d) := by
          intro hx
          apply hq
          rw [← hx, List.dropLast_concat]
        rw [List.append_assoc] at hne
        simp [List.mem_append, hne]
      rw [List.filter_congr hcongr]
  · intro rel' t hnav'
    rw [lookupD_bumpAt]
    have hq : ¬ (R ++ rel' = d.dropLast) := by
      intro hq
      rcases List.eq_nil_or_concat reld with h0 | ⟨rr, lst, h0⟩
      · -- d = R: its parent is strictly above the root
        rw [h0] at hdeq
        simp only [List.append_nil] at hdeq
        subst hdeq
        have hlenpos : 0 < d.length := List.length_pos.mpr hdne
        have := congrArg List.length hq
        rw [List.length_append, List.length_dropLast] at this
        omega
      · -- the parent of `d` is a directory, not a symlink
        rw [List.concat_eq_append] at h0
        rw [h0] at hdeq hnavd
        subst hdeq
        have hdrop : (R ++ (rr ++ [lst])).dropLast = R ++ rr := by
          rw [show R ++ (rr ++ [lst]) = (R ++ rr) ++ [lst]
              from (List.append_assoc R rr [lst]).symm,
            List.dropLast_concat]
        rw [hdrop] at hq
        have hrel : rel' = rr := List.append_cancel_left hq
        subst hrel
        rcases (nav_snoc rel' (.dir es0) lst (.dir es_d)).mp hnavd with
          ⟨esp, ep, hnavp, _, _⟩
        rw [hnav'] at hnavp
        cases hnavp
    rw [if_neg hq]
    exact hlink rel' t hnav'

/-- Pass 2 maintains the invariant over any processing order that is a
run of pairwise-distinct keys sorted by descending path length. -/
theorem propagate_inv (R : Path) (es0 : List (String × FNode))
    (hwf : wfEntries es0 = true) :
    ∀ (rest P : List Path) (m : SizeMap),
      (∀ k ∈ mapKeys (m1Of R es0), k ∈ P ++ rest) →
      (∀ k ∈ rest, k ∈ mapKeys (m1Of R es0)) →
      (P ++ rest).Nodup →
      (P ++ rest).Pairwise (fun a b => pathStrLen b ≤ pathStrLen a) →
      propInv R es0 P m →
      propInv R es0 (P ++ rest) (propagate (terminalsEntries R es0) m rest)
  | [], P, m, hcov, hmem, hnd, hsort, hinv => by simpa [propagate] using hinv
  | d :: rest', P, m, hcov, hmem, hnd, hsort, hinv => by
    have happ : ∀ l : List Path, P ++ d :: l = (P ++ [d]) ++ l := by
      intro l; simp
    have hdkey : d ∈ mapKeys (m1Of R es0) := hmem d (List.mem_cons_self _ _)
    rcases m1_keys_node R es0 hwf d hdkey with ⟨reld, nd, hdeq, hnavd, hdn⟩
    have hrec : ∀ (m' : SizeMap), propInv R es0 (P ++ [d]) m' →
        propInv R es0 (P ++ d :: rest') (propagate (terminalsEntries R es0) m' rest') := by
      intro m' hinv'
      rw [happ rest']
      exact propagate_inv R es0 hwf rest' (P ++ [d]) m'
        (fun k hk => (happ rest') ▸ hcov k hk)
        (fun k hk => hmem k (List.mem_cons_of_mem _ hk))
        ((happ rest') ▸ hnd)
        ((happ rest') ▸ hsort)
        hinv'
    by_cases hterm : d ∈ terminalsEntries R es0
    · -- terminal (symlink-to-directory) key: skipped
      rw [show propagate (terminalsEntries R es0) m (d :: rest') =
          propagate (terminalsEntries R es0) m rest' by
        simp [propagate, hterm]]
      apply hrec m
      apply propInv_extend R es0 P m d _ hinv
      -- `d` is a symlink path, so it is no real-directory child key
      rcases terminalsEntries_node R es0 hwf es0 [] es0 rfl (fun e he => he) d
        (by simpa using hterm) with ⟨relt, t, hdeq', hnavt, _⟩
      intro rel es' hnav e he hrd hx
      have hrelt : rel ++ [e.1] = relt := by
        have hx2 : R ++ (rel ++ [e.1]) = R ++ relt := by
          rw [show R ++ (rel ++ [e.1]) = R ++ rel ++ [e.1] by simp, hx, hdeq']
        exact List.append_cancel_left hx2
      have hnavx : nodeAt? (.dir es0) (rel ++ [e.1]) = some e.2 := by
        have hwfes' : wfEntries es' = true := by
          have := wfT_nodeAt rel (.dir es0) (.dir es') (by simpa [wfT] using hwf) hnav
          simpa [wfT] using this
        exact (nav_snoc rel (.dir es0) e.1 e.2).mpr
          ⟨es', e, hnav, find?_eq_of_mem_wf hwfes' he, rfl⟩
      rw [hrelt] at hnavx
      rw [hnavx] at hnavt
      have he2 : e.2 = FNode.link t := by simpa using hnavt
      rw [he2] at hrd
      simp [isRealDir] at hrd
    · by_cases hnil : d.dropLast = d
      · -- `d` is the filesystem root "/": the `parent != d` guard skips it
        have hdnil : d = [] := (dropLast_eq_self_iff d).mp hnil
        rw [show propagate (terminalsEntries R es0) m (d :: rest') =
            propagate (terminalsEntries R es0) m rest' by
          simp [propagate, hterm, hnil]]
        apply hrec m
        apply propInv_extend R es0 P m d _ hinv
        intro rel es' _ e _ _ hx
        rw [hdnil] at hx
        simp at hx
      · -- real directory key: its subtotal is complete and rolls up
        have hdne : d ≠ [] := fun h0 => hnil (by rw [h0]; rfl)
        -- `d` names a real directory
        have hnd_dir : ∃ es_d, nd = .dir es_d := by
          cases nd with
          | dir es_d => exact ⟨es_d, rfl⟩
          | file s => simp [isRealDir, isLinkDir] at hdn
          | broken => simp [isRealDir, isLinkDir] at hdn
          | link t =>
            exfalso
            apply hterm
            rw [hdeq]
            exact linkdir_mem_terminals R es0 reld t hnavd
              (by simpa [isRealDir] using hdn)
        rcases hnd_dir with ⟨es_d, hnd_eq⟩
        subst hnd_eq
        have hwfesd : wfEntries es_d = true := by
          have := wfT_nodeAt reld (.dir es0) (.dir es_d) (by simpa [wfT] using hwf) hnavd
          simpa [wfT] using this
        -- every real-directory child key of `d` is already processed
        have hchild : ∀ e ∈ es_d, isRealDir e.2 = true → (R ++ reld ++ [e.1]) ∈ P := by
          intro e he hrd
          have hck : R ++ reld ++ [e.1] ∈ mapKeys (m1Of R es0) :=
            m1_keys_child R es0 reld es_d hnavd he (by simp [hrd])
          have hckP : R ++ reld ++ [e.1] ∈ P ++ d :: rest' := hcov _ hck
          have hckd : R ++ reld ++ [e.1] ≠ d := by
            rw [hdeq]
            exact append_singleton_ne_self (R ++ reld) e.1
          have hlonger : pathStrLen d < pathStrLen (R ++ reld ++ [e.1]) := by
            rw [hdeq]
            exact pathStrLen_append_singleton (R ++ reld) e.1
              (wfEntries_names hwfesd e he)
          rcases List.mem_append.mp hckP with h | h
          · exact h
          · rcases List.mem_cons.mp h with h | h
            · exact absurd h hckd
            · exfalso
              have hpair : (d :: rest').Pairwise
                  (fun a b => pathStrLen b ≤ pathStrLen a) :=
                hsort.sublist (List.sublist_append_right P _)
              have := (List.pairwise_cons.mp hpair).1 _ h
              omega
        -- the value read for `d` is its full recursive size
        have hvd : lookupD m d = dirSize (.dir es_d) := by
          have h1 := hinv.1 reld es_d hnavd
          have hcongr : ∀ e ∈ es_d, (isRealDir e.2 &&
              decide ((R ++ reld ++ [e.1]) ∈ P)) = isRealDir e.2 := by
            intro e he
            rcases hb : isRealDir e.2 with _ | _
            · simp
            · have hp := hchild e he hb
              rw [List.append_assoc] at hp
              simp [hp]
          rw [List.filter_congr hcongr,
            lookupD_m1 R es0 reld (.dir es_d) hwf hnavd] at h1
          rw [hdeq, h1,
            show nodeSelfVal (.dir es_d) = localSumEntries es_d from rfl,
            show dirSize (.dir es_d) = dirSizeEntries es_d from rfl,
            dirSizeEntries_decomp es_d]
        have hdP : d ∉ P := by
          have hdisj := (List.nodup_append.mp hnd).2.2
          intro hp
          exact hdisj hp (List.mem_cons_self _ _)
        rw [show propagate (terminalsEntries R es0) m (d :: rest') =
            propagate (terminalsEntries R es0)
              (bumpAt m d.dropLast (lookupD m d)) rest' by
          simp [propagate, hterm, hnil]]
        apply hrec
        exact propInv_bump R es0 hwf P m d reld es_d hdeq hnavd hdP hdne hinv hvd
termination_by rest => rest.length

/-- The invariant instantiated at the full processing order used by
`buildSizeIndex`: pass 2 over all pass-1 keys, sorted by descending
path length. -/
theorem buildSizeIndex_inv (R : Path) (es0 : List (String × FNode))
    (hwf : wfEntries es0 = true) :
    propInv R es0 (sortKeysDesc (mapKeys (m1Of R es0))) (buildSizeIndex R es0) := by
  have hperm := sortKeysDesc_perm (mapKeys (m1Of R es0))
  have h := propagate_inv R es0 hwf (sortKeysDesc (mapKeys (m1Of R es0))) [] (m1Of R es0)
    (fun k hk => by simpa using hperm.mem_iff.mpr hk)
    (fun k hk => hperm.mem_iff.mp hk)
    (by simpa using hperm.nodup_iff.mpr (nodup_mapKeys_m1 R es0))
    (by simpa using sortKeysDesc_pairwise (mapKeys (m1Of R es0)))
    (propInv_base R es0)
  simpa [buildSizeIndex] using h

/-- C3 (amended): for every path the pass-1 walk of root `R` records —
every visited real directory and symlink-to-directory under the root —
the final size index holds exactly the recursive byte total that the
naive per-directory walk `dirSize` computes at the node the path names.
The original claim read literally is refuted by the parent-of-root key
the pass-2 sweep inserts (see the counterexample theorem): `sizes[d]`
for the root `d = R` itself has `parent = Dir(R) != d`, so the sweep
executes `sizes[parent] += sizes[d]`, adding a key *outside* the walked
subtree whose value is only the subtree's total, not the recursive size
of the directory `Dir(R)` names. -/
theorem buildSizeIndex_agrees_dirSize (R : Path) (es0 : List (String × FNode))
    (hwf : wfEntries es0 = true) (d : Path) (hd : d ∈ mapKeys (m1Of R es0)) :
    ∃ rel n, d = R ++ rel ∧ nodeAt? (.dir es0) rel = some n ∧
      lookupD (buildSizeIndex R es0) d = dirSize n := by
  rcases m1_keys_node R es0 hwf d hd with ⟨rel, n, hdeq, hnav, hdn⟩
  refine ⟨rel, n, hdeq, hnav, ?_⟩
  have hinv := buildSizeIndex_inv R es0 hwf
  subst hdeq
  cases n with
  | file s => simp [isRealDir, isLinkDir] at hdn
  | broken => simp [isRealDir, isLinkDir] at hdn
  | dir es' =>
    have h1 := hinv.1 rel es' hnav
    have hcongr : ∀ e ∈ es', (isRealDir e.2 &&
        decide ((R ++ rel ++ [e.1]) ∈ sortKeysDesc (mapKeys (m1Of R es0)))) =
        isRealDir e.2 := by
      intro e he
      rcases hb : isRealDir e.2 with _ | _
      · simp
      · have hk : R ++ rel ++ [e.1] ∈ mapKeys (m1Of R es0) :=
          m1_keys_child R es0 rel es' hnav he (by simp [hb])
        have hks := (sortKeysDesc_perm (mapKeys (m1Of R es0))).mem_iff.mpr hk
        rw [List.append_assoc] at hks
        simp [hks]
    rw [List.filter_congr hcongr,
      lookupD_m1 R es0 rel (.dir es') hwf hnav] at h1
    rw [h1, show dirSize (.dir es') = dirSizeEntries es' from rfl,
      dirSizeEntries_decomp es']
    rfl
  | link t =>
    have hld : isLinkDir (.link t) = true := by simpa [isRealDir] using hdn
    rw [hinv.2 rel t hnav, lookupD_m1 R es0 rel (.link t) hwf hnav]
    rcases hres : resolveNode t with _ | m
    · simp [isLinkDir, hres] at hld
    · match m, hres with
      | .dir es'', hres =>
        have hts : dirSize t = dirSizeEntries es'' := by
          simpa [dirSize] using dirSize_resolve_some hres
        simp [nodeSelfVal, hres, dirSize, hts]
      | .file s, hres => simp [isLinkDir, hres] at hld
      | .link u, hres => exact absurd hres (resolveNode_ne_link t u)
      | .broken, hres => exact absurd hres (resolveNode_ne_broken t)

/-- Witness for C3's amended theorem at a concrete tree:
root `/r` with entries `a/f` (3 bytes); the recorded path `/r/a` gets
`dirSize` of the directory `a`, namely 3. -/
theorem buildSizeIndex_agrees_dirSize_witness :
    wfEntries [("a", FNode.dir [("f", FNode.file 3)])] = true ∧
    (["r", "a"] : Path) ∈ mapKeys (m1Of ["r"] [("a", FNode.dir [("f", FNode.file 3)])]) ∧
    (∃ rel n, (["r", "a"] : Path) = ["r"] ++ rel ∧
      nodeAt? (.dir [("a", FNode.dir [("f", FNode.file 3)])]) rel = some n ∧
      lookupD (buildSizeIndex ["r"] [("a", FNode.dir [("f", FNode.file 3)])]) ["r", "a"] =
        dirSize n) :=
  ⟨by decide, by decide,
    buildSizeIndex_agrees_dirSize ["r"] [("a", FNode.dir [("f", FNode.file 3)])]
      (by decide) ["r", "a"] (by decide)⟩

/-- C3 counterexample: the claim as stated fails for a recorded path.
In the filesystem `/data/sub/f` (5 bytes), `/data/g` (7 bytes), building
the size index for the root `/data/sub` records the key `/data` (the
parent of the root, via the pass-2 roll-up of the root's own slot) with
value 5, but the directory `/data` names has recursive size 12. -/
theorem buildSizeIndex_counterexample :
    (["data"] : Path) ∈ mapKeys (buildSizeIndex ["data", "sub"] [("f", FNode.file 5)]) ∧
    lookupD (buildSizeIndex ["data", "sub"] [("f", FNode.file 5)]) ["data"] = 5 ∧
    nodeAt? (.dir [("data", FNode.dir
        [("sub", FNode.dir [("f", FNode.file 5)]), ("g", FNode.file 7)])]) ["data"] =
      some (FNode.dir [("sub", FNode.dir [("f", FNode.file 5)]), ("g", FNode.file 7)]) ∧
    dirSize (FNode.dir [("sub", FNode.dir [("f", FNode.file 5)]), ("g", FNode.file 7)]) = 12 :=
  ⟨by decide, by decide, rfl, by decide⟩

/-! ### C9: what `walkDir` emits

`walkNav?` is the navigation `walkDir` actually performs: descend
through real directories and (unlike `nodeAt?`) through symlink chains
at intermediate steps, as `entryIsDir` makes the walker do.  `wfDeep`
extends well-formedness through link targets. -/

def walkNav? : FNode → Path → Option FNode
  | n, [] => some n
  | .dir es, name :: rest =>
    match es.find? (fun e => e.1 = name) with
    | some e => walkNav? e.2 rest
    | none => none
  | .link t, name :: rest =>
    match resolveNode t with
    | some (.dir es) =>
      match es.find? (fun e => e.1 = name) with
      | some e => walkNav? e.2 rest
      | none => none
    | _ => none
  | _, _ :: _ => none

/-- Following a link one step does not change navigation on a
non-empty path. -/
theorem walkNav?_link_cons : ∀ (t : FNode) (q : String) (qs : Path),
    walkNav? (.link t) (q :: qs) = walkNav? t (q :: qs)
  | .dir es, q, qs => by simp [walkNav?, resolveNode]
  | .file s, q, qs => by simp [walkNav?, resolveNode]
  | .broken, q, qs => by simp [walkNav?, resolveNode]
  | .link u, q, qs => by
    rw [show walkNav? (.link (.link u)) (q :: qs) =
        walkNav? (.link u) (q :: qs) by simp [walkNav?, resolveNode]]

mutual
/-- Well-formedness that also constrains symlink targets. -/
def wfDeep : FNode → Bool
  | .dir es => wfDeepEntries es
  | .link t => wfDeep t
  | _ => true

def wfDeepEntries : List (String × FNode) → Bool
  | [] => true
  | (name, c) :: rest =>
    name ≠ "" ∧ rest.all (fun e => e.1 ≠ name) ∧ wfDeep c ∧ wfDeepEntries rest
end

theorem walkNav?_dir_cons {es : List (String × FNode)} {q : String}
    {rest' : Path} {c : FNode} :
    walkNav? (.dir es) (q :: rest') = some c ↔
      ∃ e, es.find? (fun x => x.1 = q) = some e ∧ walkNav? e.2 rest' = some c := by
  rcases hfind : es.find? (fun x => x.1 = q) with _ | e
  · simp [walkNav?, hfind]
  · simp [walkNav?, hfind]

/-- A non-directory-like entry cannot be navigated into. -/
theorem walkNav?_none_of_nondir : ∀ (c : FNode), entryIsDir c = false →
    ∀ (q : String) (qs : Path), walkNav? c (q :: qs) = none
  | .file s, _, q, qs => rfl
  | .broken, _, q, qs => rfl
  | .dir es, h, q, qs => by simp [entryIsDir] at h
  | .link t, h, q, qs => by
    have ht : entryIsDir t = false := by
      cases t with
      | dir es => simp [entryIsDir, resolveNode] at h
      | file s => rfl
      | broken => rfl
      | link u =>
        simp only [entryIsDir] at h
        simpa [entryIsDir, resolveNode] using h
    rw [walkNav?_link_cons t q qs]
    exact walkNav?_none_of_nondir t ht q qs

/-- A non-directory entry contributes its `{Name, Path}` record (with
the never-assigned zero size). -/
theorem walkDirEntries_mem_nondir (label : String) (rel0 : Path)
    (es : List (String × FNode)) {nm : String} {c : FNode}
    (hmem : (nm, c) ∈ es) (hnd : entryIsDir c = false) :
    (⟨nm, urlPath label (rel0 ++ [nm]), 0⟩ : IndexEntry) ∈
      walkDirEntries label rel0 es := by
  induction es with
  | nil => simp at hmem
  | cons e0 rest ih =>
    obtain ⟨nm0, c0⟩ := e0
    rcases List.mem_cons.mp hmem with h | h
    · obtain ⟨h1, h2⟩ := Prod.mk.injEq .. ▸ h
      subst h1; subst h2
      rw [show walkDirEntries label rel0 ((nm, c) :: rest) =
          (if entryIsDir c then walkDirNode label (rel0 ++ [nm]) c
           else [⟨nm, urlPath label (rel0 ++ [nm]), 0⟩]) ++
          walkDirEntries label rel0 rest from rfl, hnd]
      simp
    · rw [show walkDirEntries label rel0 ((nm0, c0) :: rest) =
          (if entryIsDir c0 then walkDirNode label (rel0 ++ [nm0]) c0
           else [⟨nm0, urlPath label (rel0 ++ [nm0]), 0⟩]) ++
          walkDirEntries label rel0 rest from rfl]
      exact List.mem_append_right _ (ih h)

/-- A directory-like entry contributes its whole recursive index. -/
theorem walkDirEntries_mem_dir (label : String) (rel0 : Path)
    (es : List (String × FNode)) {nm : String} {c : FNode}
    (hmem : (nm, c) ∈ es) (hd : entryIsDir c = true)
    {ent : IndexEntry} (hent : ent ∈ walkDirNode label (rel0 ++ [nm]) c) :
    ent ∈ walkDirEntries label rel0 es := by
  induction es with
  | nil => simp at hmem
  | cons e0 rest ih =>
    obtain ⟨nm0, c0⟩ := e0
    rcases List.mem_cons.mp hmem with h | h
    · obtain ⟨h1, h2⟩ := Prod.mk.injEq .. ▸ h
      subst h1; subst h2
      rw [show walkDirEntries label rel0 ((nm, c) :: rest) =
          (if entryIsDir c then walkDirNode label (rel0 ++ [nm]) c
           else [⟨nm, urlPath label (rel0 ++ [nm]), 0⟩]) ++
          walkDirEntries label rel0 rest from rfl, hd]
      exact List.mem_append_left _ (by simpa using hent)
    · rw [show walkDirEntries label rel0 ((nm0, c0) :: rest) =
          (if entryIsDir c0 then walkDirNode label (rel0 ++ [nm0]) c0
           else [⟨nm0, urlPath label (rel0 ++ [nm0]), 0⟩]) ++
          walkDirEntries label rel0 rest from rfl]
      exact List.mem_append_right _ (ih h)

/-- Completeness: every regular file the walk can reach is emitted,
with the zero size. -/
theorem walkDir_complete : ∀ (n : FNode) (label : String) (rel0 r : Path)
    (name : String) (s : Nat),
    walkNav? n (r ++ [name]) = some (.file s) →
    (⟨name, urlPath label (rel0 ++ (r ++ [name])), 0⟩ : IndexEntry) ∈
      walkDirNode label rel0 n
  | .file s', label, rel0, r, name, s, h => by
    rw [show walkNav? (.file s') (r ++ [name]) = none by cases r <;> rfl] at h
    cases h
  | .broken, label, rel0, r, name, s, h => by
    rw [show walkNav? .broken (r ++ [name]) = none by cases r <;> rfl] at h
    cases h
  | .link t, label, rel0, r, name, s, h => by
    rw [show walkNav? (.link t) (r ++ [name]) = walkNav? t (r ++ [name]) by
      cases r with
      | nil => exact walkNav?_link_cons t name []
      | cons q2 r2 => rw [List.cons_append]; exact walkNav?_link_cons t q2 (r2 ++ [name])] at h
    exact walkDir_complete t label rel0 r name s h
  | .dir es, label, rel0, [], name, s, h => by
    rw [List.nil_append] at h
    rcases walkNav?_dir_cons.mp h with ⟨e, hfind, hnav⟩
    obtain ⟨e1, c⟩ := e
    have hname : e1 = name := by simpa using List.find?_some hfind
    subst hname
    have hc : c = .file s := by simpa [walkNav?] using hnav
    subst hc
    exact walkDirEntries_mem_nondir label rel0 es
      (List.mem_of_find?_eq_some hfind) rfl
  | .dir es, label, rel0, q :: r', name, s, h => by
    rw [List.cons_append] at h
    rcases walkNav?_dir_cons.mp h with ⟨e, hfind, hnav⟩
    obtain ⟨e1, c⟩ := e
    have hq : e1 = q := by simpa using List.find?_some hfind
    subst hq
    by_cases hdir : entryIsDir c = true
    · have hin := walkDir_complete c label (rel0 ++ [e1]) r' name s hnav
      have hmm := walkDirEntries_mem_dir label rel0 es
        (List.mem_of_find?_eq_some hfind) hdir hin
      have hpath : rel0 ++ (e1 :: r' ++ [name]) = (rel0 ++ [e1]) ++ (r' ++ [name]) := by
        simp
      rw [show walkDirNode label rel0 (.dir es) = walkDirEntries label rel0 es from rfl,
        hpath]
      exact hmm
    · have hnone : walkNav? c (r' ++ [name]) = none := by
        cases r' with
        | nil => exact walkNav?_none_of_nondir c (by simpa using hdir) name []
        | cons q2 rest2 =>
          rw [List.cons_append]
          exact walkNav?_none_of_nondir c (by simpa using hdir) q2 (rest2 ++ [name])
      rw [hnone] at hnav
      cases hnav
termination_by n _ _ r _ _ _ => (r.length, sizeOf n)

/-- Prepending an entry whose name differs from a path's first segment
does not change navigation. -/
theorem walkNav?_dir_tail {es : List (String × FNode)} {nm : String} {c0 c : FNode}
    (hall : ∀ e ∈ es, e.1 ≠ nm) {q : String} {tail : Path}
    (hnav : walkNav? (.dir es) (q :: tail) = some c) :
    walkNav? (.dir ((nm, c0) :: es)) (q :: tail) = some c := by
  rcases walkNav?_dir_cons.mp hnav with ⟨e, hfind, hnav'⟩
  have hqe : e.1 = q := by simpa using List.find?_some hfind
  have hmem := List.mem_of_find?_eq_some hfind
  have hne : ¬ (nm = q) := fun hx => hall e hmem (hqe.trans hx.symm)
  refine walkNav?_dir_cons.mpr ⟨e, ?_, hnav'⟩
  rw [List.find?_cons_of_neg _ (by simpa using hne)]
  exact hfind

/-- Soundness: everything `walkDir` emits is a non-directory entry the
walk reached, recorded with its name, its URL path and the zero size. -/
theorem walkDir_sound : ∀ (n : FNode) (label : String) (rel0 : Path),
    wfDeep n = true →
    ∀ ent ∈ walkDirNode label rel0 n,
    ∃ r name c, walkNav? n (r ++ [name]) = some c ∧ entryIsDir c = false ∧
      ent = ⟨name, urlPath label (rel0 ++ (r ++ [name])), 0⟩
  | .file s, label, rel0, hw, ent, hent => by
    simp [walkDirNode] at hent
  | .broken, label, rel0, hw, ent, hent => by
    simp [walkDirNode] at hent
  | .link t, label, rel0, hw, ent, hent => by
    have hent' : ent ∈ walkDirNode label rel0 t := hent
    rcases walkDir_sound t label rel0 (by simpa [wfDeep] using hw) ent hent' with
      ⟨r, name, c, hnav, hnd, heq⟩
    refine ⟨r, name, c, ?_, hnd, heq⟩
    rw [show walkNav? (.link t) (r ++ [name]) = walkNav? t (r ++ [name]) by
      cases r with
      | nil => exact walkNav?_link_cons t name []
      | cons q2 r2 => rw [List.cons_append]; exact walkNav?_link_cons t q2 (r2 ++ [name])]
    exact hnav
  | .dir [], label, rel0, hw, ent, hent => by
    simp [walkDirNode, walkDirEntries] at hent
  | .dir ((nm, c0) :: rest), label, rel0, hw, ent, hent => by
    have hw' : (nm ≠ "" ∧ rest.all (fun e => e.1 ≠ nm) = true ∧
        wfDeep c0 = true ∧ wfDeepEntries rest = true) := by
      have := hw
      simp only [wfDeep, wfDeepEntries, Bool.decide_and, Bool.and_eq_true,
        decide_eq_true_eq] at this
      exact ⟨this.1, by simpa using this.2.1, this.2.2.1, this.2.2.2⟩
    obtain ⟨hname, hall, hwc, hwrest⟩ := hw'
    have hallp : ∀ e ∈ rest, e.1 ≠ nm := by
      intro e he
      have := List.all_eq_true.mp hall e he
      simpa using this
    have hent' : ent ∈ (if entryIsDir c0 then walkDirNode label (rel0 ++ [nm]) c0
        else [⟨nm, urlPath label (rel0 ++ [nm]), 0⟩]) ++
        walkDirEntries label rel0 rest := hent
    rcases List.mem_append.mp hent' with hL | hR
    · by_cases hdir : entryIsDir c0 = true
      · rw [if_pos hdir] at hL
        rcases walkDir_sound c0 label (rel0 ++ [nm]) hwc ent hL with
          ⟨r, name, c, hnav, hnd, heq⟩
        refine ⟨nm :: r, name, c, ?_, hnd, ?_⟩
        · rw [List.cons_append]
          exact walkNav?_dir_cons.mpr
            ⟨(nm, c0), List.find?_cons_of_pos _ (by simp), hnav⟩
        · rw [heq,
            show rel0 ++ (nm :: r ++ [name]) = (rel0 ++ [nm]) ++ (r ++ [name]) by simp]
      · rw [if_neg hdir] at hL
        have hent_eq : ent = ⟨nm, urlPath label (rel0 ++ [nm]), 0⟩ := by
          simpa using hL
        refine ⟨[], nm, c0, ?_, by simpa using hdir, by simpa using hent_eq⟩
        rw [List.nil_append]
        exact walkNav?_dir_cons.mpr
          ⟨(nm, c0), List.find?_cons_of_pos _ (by simp), by cases c0 <;> rfl⟩
    · have hR' : ent ∈ walkDirNode label rel0 (.dir rest) := hR
      rcases walkDir_sound (.dir rest) label rel0 (by simpa [wfDeep] using hwrest)
        ent hR' with ⟨r, name, c, hnav, hnd, heq⟩
      refine ⟨r, name, c, ?_, hnd, heq⟩
      cases r with
      | nil =>
        rw [List.nil_append] at hnav ⊢
        exact walkNav?_dir_tail hallp hnav
      | cons q r2 =>
        rw [List.cons_append] at hnav ⊢
        exact walkNav?_dir_tail hallp hnav
termination_by n _ _ _ _ _ => sizeOf n
decreasing_by
  all_goals simp_wf
  all_goals omega

theorem buildIndex_mem_of_root (roots : List (String × FNode))
    {label : String} {rn : FNode} (hroot : (label, rn) ∈ roots)
    {ent : IndexEntry} (hent : ent ∈ walkDirNode label [] rn) :
    ent ∈ buildIndex roots := by
  induction roots with
  | nil => simp at hroot
  | cons r0 rest ih =>
    obtain ⟨l0, n0⟩ := r0
    rw [show buildIndex ((l0, n0) :: rest) =
        walkDirNode l0 [] n0 ++ buildIndex rest from rfl]
    rcases List.mem_cons.mp hroot with h | h
    · obtain ⟨h1, h2⟩ := Prod.mk.injEq .. ▸ h
      subst h1; subst h2
      exact List.mem_append_left _ hent
    · exact List.mem_append_right _ (ih h)

theorem buildIndex_mem_inv (roots : List (String × FNode))
    {ent : IndexEntry} (hent : ent ∈ buildIndex roots) :
    ∃ label rn, (label, rn) ∈ roots ∧ ent ∈ walkDirNode label [] rn := by
  induction roots with
  | nil => simp [buildIndex] at hent
  | cons r0 rest ih =>
    obtain ⟨l0, n0⟩ := r0
    rw [show buildIndex ((l0, n0) :: rest) =
        walkDirNode l0 [] n0 ++ buildIndex rest from rfl] at hent
    rcases List.mem_append.mp hent with h | h
    · exact ⟨l0, n0, List.mem_cons_self _ _, h⟩
    · rcases ih h with ⟨label, rn, h1, h2⟩
      exact ⟨label, rn, List.mem_cons_of_mem _ h1, h2⟩

/-- C9 (amended): over well-formed roots, the search index contains an
entry `{name, "/<label>/<relpath>", 0}` for every regular file the walk
reaches under every root, and every index entry records a reached
non-directory entry (directories are traversed but never emitted) — but
each entry's size field is the never-assigned zero value, not the
file's size, because this `walkDir` builds `IndexEntry{Name, Path}`
without setting `Size`.  The claim as stated (entries carry the file's
size) is refuted by the counterexample theorem. -/
theorem buildIndex_files_zero_size (roots : List (String × FNode))
    (hwf : ∀ e ∈ roots, wfDeep e.2 = true) :
    (∀ label rn, (label, rn) ∈ roots → ∀ r name s,
        walkNav? rn (r ++ [name]) = some (.file s) →
        (⟨name, urlPath label (r ++ [name]), 0⟩ : IndexEntry) ∈ buildIndex roots) ∧
    (∀ ent ∈ buildIndex roots, ent.size = 0 ∧
      ∃ label rn r name c, (label, rn) ∈ roots ∧
        walkNav? rn (r ++ [name]) = some c ∧ entryIsDir c = false ∧
        ent = ⟨name, urlPath label (r ++ [name]), 0⟩) := by
  constructor
  · intro label rn hroot r name s hnav
    have h := walkDir_complete rn label [] r name s hnav
    rw [List.nil_append] at h
    exact buildIndex_mem_of_root roots hroot h
  · intro ent hent
    rcases buildIndex_mem_inv roots hent with ⟨label, rn, hroot, hent'⟩
    rcases walkDir_sound rn label [] (hwf (label, rn) hroot) ent hent' with
      ⟨r, name, c, hnav, hnd, heq⟩
    rw [List.nil_append] at heq
    exact ⟨by rw [heq], label, rn, r, name, c, hroot, hnav, hnd, heq⟩

/-- Witness for C9's amended theorem: one root `/r` holding the single
regular file `f` of 7 bytes; its index entry exists with path `/r/f`
and size 0. -/
theorem buildIndex_files_zero_size_witness :
    (∀ e ∈ [("r", FNode.dir [("f", FNode.file 7)])], wfDeep e.2 = true) ∧
    (⟨"f", urlPath "r" ["f"], 0⟩ : IndexEntry) ∈
      buildIndex [("r", FNode.dir [("f", FNode.file 7)])] :=
  ⟨by decide,
    (buildIndex_files_zero_size [("r", FNode.dir [("f", FNode.file 7)])]
        (by decide)).1
      "r" (FNode.dir [("f", FNode.file 7)]) (List.mem_cons_self _ _) [] "f" 7 rfl⟩

/-- C9 counterexample: for the root `/r` holding the 7-byte file `f`,
the index is exactly `[{f, /r/f, 0}]`; the entry carries size 0, and no
entry carries the file's stat size 7. -/
theorem buildIndex_size_counterexample :
    buildIndex [("r", FNode.dir [("f", FNode.file 7)])] =
      [⟨"f", "/r/f", 0⟩] ∧
    ¬ ((⟨"f", "/r/f", 7⟩ : IndexEntry) ∈
        buildIndex [("r", FNode.dir [("f", FNode.file 7)])]) := by
  decide

/-! ### C2: `buildZip` / `streamZip` (handlers/zip.go)

`buildZip` writes a ZIP archive with Store (verbatim) compression: per
entry a local header (a function of the archive name), then the file's
bytes — an unreadable file is skipped after its header was created —
and on `Close` the central directory (a function of the entries).  The
byte stream is a deterministic function of the entry list and the
filesystem contents, so we model the library's emission as concrete
chunk functions and keep `buildZip` polymorphic in the writer, exactly
as the Go code runs it once against `countingWriter` and once against
the `http.ResponseWriter`.  Bytes are `Nat`s, file contents a partial
map `String → Option (List Nat)` (`none` = `os.Open` fails). -/

structure zipEntry where
  fsPath : String
  zipName : String
  size : Nat
deriving Repr, DecidableEq

/-- The local-file-header bytes `zw.CreateHeader` emits for a stored
entry: the PK\x03\x04 signature followed by the name's bytes. -/
def localHeader (name : String) : List Nat :=
  [80, 75, 3, 4] ++ name.data.map Char.toNat

/-- The central-directory and end-record bytes `zw.Close` emits: one
PK\x01\x02 record per entry (name bytes again) and the PK\x05\x06 end
record carrying the entry count. -/
def endOfArchive (entries : List zipEntry) : List Nat :=
  (entries.map (fun e => [80, 75, 1, 2] ++ e.zipName.data.map Char.toNat)).flatten ++
    [80, 75, 5, 6, entries.length]

/-- The per-entry loop of `buildZip`: create the header, then copy the
file's bytes; `os.Open` failure skips the copy. -/
def writeEntries {σ : Type} (write : σ → List Nat → σ)
    (fs : String → Option (List Nat)) : σ → List zipEntry → σ
  | s, [] => s
  | s, e :: rest =>
    let s1 := write s (localHeader e.zipName)
    let s2 := match fs e.fsPath with
      | none => s1
      | some content => write s1 content
    writeEntries write fs s2 rest

/-- `buildZip(w, entries)`: the entry loop then `zw.Close()`. -/
def buildZip {σ : Type} (write : σ → List Nat → σ)
    (fs : String → Option (List Nat)) (s : σ) (entries : List zipEntry) : σ :=
  write (writeEntries write fs s entries) (endOfArchive entries)

/-- `streamZip(w, entries, name)`: dry-run pass over the counting
writer giving the advertised `Content-Length` (and the returned byte
count), then the real pass against the response writer giving the
response body. -/
def streamZip (fs : String → Option (List Nat)) (entries : List zipEntry) :
    Nat × List Nat :=
  (buildZip (fun n p => n + p.length) fs 0 entries,
   buildZip (fun acc p => acc ++ p) fs [] entries)

theorem writeEntries_length (fs : String → Option (List Nat)) :
    ∀ (entries : List zipEntry) (acc : List Nat) (n : Nat),
      acc.length = n →
      (writeEntries (fun a p => a ++ p) fs acc entries).length =
        writeEntries (fun m p => m + p.length) fs n entries
  | [], acc, n, h => h
  | e :: rest, acc, n, h => by
    rw [show writeEntries (fun a p => a ++ p) fs acc (e :: rest) =
        writeEntries (fun a p => a ++ p) fs
          (match fs e.fsPath with
           | none => acc ++ localHeader e.zipName
           | some content => (acc ++ localHeader e.zipName) ++ content) rest from by
      simp [writeEntries]]
    rw [show writeEntries (fun m p => m + p.length) fs n (e :: rest) =
        writeEntries (fun m p => m + p.length) fs
          (match fs e.fsPath with
           | none => n + (localHeader e.zipName).length
           | some content => (n + (localHeader e.zipName).length) + content.length)
          rest from by
      simp [writeEntries]]
    rcases fs e.fsPath with _ | content
    · exact writeEntries_length fs rest _ _ (by simp [h])
    · exact writeEntries_length fs rest _ _ (by simp [h]; omega)

/-- C2: for every filesystem snapshot and entry list, the body the real
pass of `streamZip` writes has exactly as many bytes as the advertised
`Content-Length` computed by the dry-run pass. -/
theorem streamZip_bytes_match_content_length (fs : String → Option (List Nat))
    (entries : List zipEntry) :
    ((streamZip fs entries).2).length = (streamZip fs entries).1 := by
  show (buildZip (fun a p => a ++ p) fs [] entries).length =
    buildZip (fun m p => m + p.length) fs 0 entries
  rw [buildZip, buildZip, List.length_append,
    writeEntries_length fs entries [] 0 rfl]

/-! ### C7: download statistics (`RecordDownload`, `FileHandler`,
`ZipHandler`)

`RecordDownload(bytesSent)` bumps the two counters.  `FileHandler`
serves the file through `http.ServeContent` — which honours range
requests, writing only the requested slice — and then calls
`RecordDownload(info.Size())` with the file's stat size.  `ZipHandler`
streams the archive and records the byte count `streamZip` returned,
i.e. the dry-run count.  A range is `(offset, length)` as served. -/

structure StatsSnapshot where
  totalDownloads : Nat
  totalBytes : Nat
deriving Repr, DecidableEq

def RecordDownload (st : StatsSnapshot) (bytesSent : Nat) : StatsSnapshot :=
  { totalDownloads := st.totalDownloads + 1, totalBytes := st.totalBytes + bytesSent }

/-- `http.ServeContent`: the whole file, or the requested byte range. -/
def serveContent (content : List Nat) (range : Option (Nat × Nat)) : List Nat :=
  match range with
  | none => content
  | some (off, len) => (content.drop off).take len

/-- The download path of `FileHandler`: the body `ServeContent` writes
and the statistics update `RecordDownload(info.Size())` performs. -/
def FileHandler (st : StatsSnapshot) (content : List Nat)
    (range : Option (Nat × Nat)) : List Nat × StatsSnapshot :=
  (serveContent content range, RecordDownload st content.length)

/-- The success path of `ZipHandler`: the streamed body and
`RecordDownload(n)` with `streamZip`'s returned dry-run count. -/
def ZipHandler (st : StatsSnapshot) (fs : String → Option (List Nat))
    (entries : List zipEntry) : List Nat × StatsSnapshot :=
  ((streamZip fs entries).2, RecordDownload st (streamZip fs entries).1)

/-- C7 (amended): every completed download increments the download
counter by exactly one.  A `/zip/*` download adds the dry-run byte
count to the byte counter, and that count equals the bytes written to
the body.  A `/download/*` file download adds the file's stat size —
not the bytes actually written, which for a range request is only the
requested slice (see the counterexample theorem). -/
theorem download_recording (st : StatsSnapshot) (content : List Nat)
    (range : Option (Nat × Nat)) (fs : String → Option (List Nat))
    (entries : List zipEntry) :
    (FileHandler st content range).2 =
      ⟨st.totalDownloads + 1, st.totalBytes + content.length⟩ ∧
    ((FileHandler st content range).1 = serveContent content range) ∧
    (ZipHandler st fs entries).2 =
      ⟨st.totalDownloads + 1, st.totalBytes + (streamZip fs entries).1⟩ ∧
    ((ZipHandler st fs entries).1).length = (streamZip fs entries).1 := by
  refine ⟨rfl, rfl, rfl, ?_⟩
  show ((streamZip fs entries).2).length = (streamZip fs entries).1
  show (buildZip (fun a p => a ++ p) fs [] entries).length =
    buildZip (fun m p => m + p.length) fs 0 entries
  rw [buildZip, buildZip, List.length_append,
    writeEntries_length fs entries [] 0 rfl]

/-- C7 counterexample: a range request for the first 50 bytes of a
100-byte file writes 50 bytes but records a download of 100 bytes. -/
theorem fileDownload_records_stat_size_counterexample :
    ((FileHandler ⟨0, 0⟩ (List.replicate 100 7) (some (0, 50))).1).length = 50 ∧
    (FileHandler ⟨0, 0⟩ (List.replicate 100 7) (some (0, 50))).2 =
      ⟨1, 100⟩ ∧ (50 : Nat) ≠ 100 := by
  decide

/-! ### C4: `dirSize` on a filesystem with symlink cycles

The tree model `FNode` cannot represent a symlink to an ancestor, so
for the termination claim the filesystem is a finite map of absolute
paths (segment lists) to nodes, where a symlink stores its target
*path* — cycles are representable.  `dirSizeF` is `dirSize` with an
explicit fuel parameter decremented at every recursive call: the Go
function terminates on an input exactly when some fuel suffices, so
`∀ fuel, dirSizeF fs fuel root = none` is non-termination on that
input.  The recursion mirrors dir.go: resolve the root through
`EvalSymlinks`, walk (Lstat semantics: real directories descend, a
symlink is resolved and a directory target re-enters `dirSize`
recursively — with no visited set and no depth bound). -/

inductive PNode where
  | pfile (size : Nat)
  | pdir
  | plink (target : List String)
deriving Repr, DecidableEq

def lookupP (fs : List (List String × PNode)) (p : List String) : Option PNode :=
  match fs.find? (fun e => e.1 = p) with
  | some e => some e.2
  | none => none

/-- The immediate children `os.ReadDir` would list for directory `p`. -/
def childPaths (fs : List (List String × PNode)) (p : List String) :
    List (List String) :=
  (fs.filter (fun e => e.1.dropLast = p && e.1.length = p.length + 1)).map
    (fun e => e.1)

/-- `filepath.EvalSymlinks`: follow the link chain (fuelled). -/
def evalSymlinksP (fs : List (List String × PNode)) :
    List String → Nat → Option (List String)
  | _, 0 => none
  | p, fuel+1 =>
    match lookupP fs p with
    | some (.plink t) => evalSymlinksP fs t fuel
    | some _ => some p
    | none => none

mutual
/-- The `WalkDir` visit of one path (Lstat semantics). -/
def walkF (fs : List (List String × PNode)) : Nat → List String → Option Nat
  | 0, _ => none
  | fuel+1, p =>
    match lookupP fs p with
    | some .pdir => foldChildren fs fuel (childPaths fs p)
    | some (.pfile s) => some s
    | _ => some 0

/-- Sum the walk contributions of a directory's children. -/
def foldChildren (fs : List (List String × PNode)) :
    Nat → List (List String) → Option Nat
  | 0, _ => none
  | _+1, [] => some 0
  | fuel+1, c :: rest =>
    match stepF fs fuel c, foldChildren fs fuel rest with
    | some a, some b => some (a + b)
    | _, _ => none

/-- One child's contribution: a file its size; a real directory
descends; a symlink is resolved — a file target its size, a directory
target `total += dirSize(resolved)`, re-entering the top. -/
def stepF (fs : List (List String × PNode)) : Nat → List String → Option Nat
  | 0, _ => none
  | fuel+1, c =>
    match lookupP fs c with
    | some (.pfile s) => some s
    | some .pdir => walkF fs fuel c
    | some (.plink t) =>
      match evalSymlinksP fs t (fuel+1) with
      | none => some 0
      | some q =>
        match lookupP fs q with
        | some (.pfile s) => some s
        | some .pdir => dirSizeF fs fuel q
        | _ => some 0
    | none => some 0

/-- `dirSize(root)`: resolve the root, then walk. -/
def dirSizeF (fs : List (List String × PNode)) : Nat → List String → Option Nat
  | 0, _ => none
  | fuel+1, root =>
    match evalSymlinksP fs root (fuel+1) with
    | none => walkF fs fuel root
    | some q => walkF fs fuel q
end

/-- Directory `/a` containing the symlink `/a/s → /a`: a symlink whose
resolved target is an ancestor of the directory containing it. -/
def cyclicFS : List (List String × PNode) :=
  [(["a"], .pdir), (["a", "s"], .plink ["a"])]

/-- The same shape without the cycle: `/a` holding one 5-byte file. -/
def acyclicFS : List (List String × PNode) :=
  [(["a"], .pdir), (["a", "f"], .pfile 5)]

theorem dirSizeF_cyclic_none : ∀ fuel, dirSizeF cyclicFS fuel ["a"] = none
  | 0 => rfl
  | 1 => rfl
  | 2 => rfl
  | 3 => rfl
  | (n+4) => by
    have ih := dirSizeF_cyclic_none n
    have h1 : dirSizeF cyclicFS (n+4) ["a"] = walkF cyclicFS (n+3) ["a"] := rfl
    have h2 : walkF cyclicFS (n+3) ["a"] =
        foldChildren cyclicFS (n+2) [["a", "s"]] := rfl
    have h3 : foldChildren cyclicFS (n+2) [["a", "s"]] =
        match stepF cyclicFS (n+1) ["a", "s"],
          foldChildren cyclicFS (n+1) ([] : List (List String)) with
        | some a, some b => some (a + b)
        | _, _ => none := rfl
    have h4 : stepF cyclicFS (n+1) ["a", "s"] = dirSizeF cyclicFS n ["a"] := rfl
    have h5 : foldChildren cyclicFS (n+1) ([] : List (List String)) = some 0 := rfl
    rw [h1, h2, h3, h4, h5, ih]

/-- C4: `dirSize` does not terminate on a symlink cycle — no amount of
fuel lets the fuelled embedding finish on `/a` with `/a/s → /a`
(there is no visited-set or depth-bound defense) — although the same
walk on the acyclic variant finishes and counts its file. -/
theorem dirSize_no_cycle_defense :
    (∀ fuel, dirSizeF cyclicFS fuel ["a"] = none) ∧
    dirSizeF acyclicFS 4 ["a"] = some 5 :=
  ⟨dirSizeF_cyclic_none, rfl⟩

/-! ### C5: the directory-size cache (`cachedDirSize` /
`invalidateSizePath` / `evictSizePath`)

One key's slice of the cache as a labelled transition system.  Every
mutex-protected critical section of the Go code is one atomic
transition.  An entry carries the Go fields (`size`, `computing`,
`stale`) plus `expired`, the truth value of `!time.Now().Before(e.expires)`;
`expire` is the passage of time.  A spawned `dirSize` walk is
generation-tagged: its finisher writes back through the entry pointer
it captured, which reaches the cache map only while the map still
holds that same entry (same generation) — `evictSizePath` deletes the
entry, detaching any in-flight walk.  `step` returns `none` when an
operation's guard does not hold (the branch is not taken). -/

structure sizeEntry where
  size : Nat
  computing : Bool
  stale : Bool
  expired : Bool
deriving Repr, DecidableEq

structure SizeCacheState where
  entry : Option (Nat × sizeEntry)
  walks : List Nat
  nextGen : Nat
deriving Repr, DecidableEq

inductive CacheOp where
  /-- Fresh hit: return the size, no state change. -/
  | readFresh
  /-- Stale hit, no walk in flight: mark computing, clear stale, spawn
  a background walk, return the last known size. -/
  | staleStart
  /-- A walk is in flight and a previous size exists: return it. -/
  | readLastKnown
  /-- True miss: create the entry, mark computing, walk synchronously. -/
  | missStart
  /-- Expired non-stale entry: mark computing, walk synchronously. -/
  | expiredStart
  /-- A walk of generation `g` finishes with result `fresh`: store the
  size, clear computing, reset the deadline — through its own pointer. -/
  | finish (g fresh : Nat)
  /-- `invalidateSizePath`: mark stale if the entry exists. -/
  | invalidate
  /-- `evictSizePath`: delete the entry. -/
  | evict
  /-- The safety-TTL deadline passes. -/
  | expire
deriving Repr, DecidableEq

def initSizeCache : SizeCacheState := ⟨none, [], 0⟩

def step (s : SizeCacheState) : CacheOp → Option SizeCacheState
  | .readFresh =>
    match s.entry with
    | some (_, e) =>
      if e.computing = false ∧ e.stale = false ∧ e.expired = false then some s
      else none
    | none => none
  | .staleStart =>
    match s.entry with
    | some (g, e) =>
      if e.stale = true ∧ e.computing = false then
        some { s with
                entry := some (g, { e with computing := true, stale := false }),
                walks := g :: s.walks }
      else none
    | none => none
  | .readLastKnown =>
    match s.entry with
    | some (_, e) => if e.computing = true ∧ e.size ≠ 0 then some s else none
    | none => none
  | .missStart =>
    match s.entry with
    | none =>
      some { entry := some (s.nextGen, ⟨0, true, false, false⟩),
             walks := s.nextGen :: s.walks, nextGen := s.nextGen + 1 }
    | some _ => none
  | .expiredStart =>
    match s.entry with
    | some (g, e) =>
      if e.computing = false ∧ e.stale = false ∧ e.expired = true then
        some { s with
                entry := some (g, { e with computing := true }),
                walks := g :: s.walks }
      else none
    | none => none
  | .finish g fresh =>
    if g ∈ s.walks then
      some { s with
              walks := s.walks.erase g,
              entry := match s.entry with
                | some (g', e) =>
                  if g' = g then some (g', ⟨fresh, false, e.stale, false⟩)
                  else some (g', e)
                | none => none }
    else none
  | .invalidate =>
    match s.entry with
    | some (g, e) => some { s with entry := some (g, { e with stale := true }) }
    | none => some s
  | .evict => some { s with entry := none }
  | .expire =>
    match s.entry with
    | some (g, e) => some { s with entry := some (g, { e with expired := true }) }
    | none => some s

def runCache : SizeCacheState → List CacheOp → Option SizeCacheState
  | s, [] => some s
  | s, op :: rest =>
    match step s op with
    | some s' => runCache s' rest
    | none => none

def entryComputing (s : SizeCacheState) : Bool :=
  match s.entry with
  | some (_, e) => e.computing
  | none => false

/-- The single-walk invariant: no walk and no computing flag, or
exactly one walk, attached to the live entry, with computing set. -/
def cacheInv (s : SizeCacheState) : Prop :=
  (s.walks = [] ∧ entryComputing s = false) ∨
  (∃ g e, s.walks = [g] ∧ s.entry = some (g, e) ∧ e.computing = true)

theorem step_preserves_inv {s s' : SizeCacheState} {op : CacheOp}
    (hop : op ≠ .evict) (hinv : cacheInv s) (hstep : step s op = some s') :
    cacheInv s' := by
  cases op with
  | readFresh =>
    rcases he : s.entry with _ | ge
    · simp [step, he] at hstep
    · obtain ⟨g, e⟩ := ge
      simp only [step, he] at hstep
      split at hstep
      · injection hstep with h; exact h ▸ hinv
      · cases hstep
  | readLastKnown =>
    rcases he : s.entry with _ | ge
    · simp [step, he] at hstep
    · obtain ⟨g, e⟩ := ge
      simp only [step, he] at hstep
      split at hstep
      · injection hstep with h; exact h ▸ hinv
      · cases hstep
  | invalidate =>
    rcases he : s.entry with _ | ge
    · simp only [step, he] at hstep
      injection hstep with h
      exact h ▸ hinv
    · obtain ⟨g, e⟩ := ge
      simp only [step, he] at hstep
      injection hstep with h
      subst h
      rcases hinv with ⟨h1, h2⟩ | ⟨g0, e0, h1, h2, h3⟩
      · left
        refine ⟨h1, ?_⟩
        rw [entryComputing, he] at h2
        simpa [entryComputing] using h2
      · right
        rw [he] at h2
        injection h2 with h2
        obtain ⟨hg, he0⟩ := Prod.mk.injEq .. ▸ h2.symm
        subst hg
        exact ⟨g0, { e with stale := true }, h1, rfl, he0 ▸ h3⟩
  | expire =>
    rcases he : s.entry with _ | ge
    · simp only [step, he] at hstep
      injection hstep with h
      exact h ▸ hinv
    · obtain ⟨g, e⟩ := ge
      simp only [step, he] at hstep
      injection hstep with h
      subst h
      rcases hinv with ⟨h1, h2⟩ | ⟨g0, e0, h1, h2, h3⟩
      · left
        refine ⟨h1, ?_⟩
        rw [entryComputing, he] at h2
        simpa [entryComputing] using h2
      · right
        rw [he] at h2
        injection h2 with h2
        obtain ⟨hg, he0⟩ := Prod.mk.injEq .. ▸ h2.symm
        subst hg
        exact ⟨g0, { e with expired := true }, h1, rfl, he0 ▸ h3⟩
  | staleStart =>
    rcases he : s.entry with _ | ge
    · simp [step, he] at hstep
    · obtain ⟨g, e⟩ := ge
      simp only [step, he] at hstep
      split at hstep
      · rename_i hguard
        injection hstep with h
        subst h
        have hw : s.walks = [] := by
          rcases hinv with ⟨h1, _⟩ | ⟨g0, e0, h1, h2, h3⟩
          · exact h1
          · rw [he] at h2
            injection h2 with h2
            obtain ⟨_, he0⟩ := Prod.mk.injEq .. ▸ h2.symm
            rw [he0] at h3
            rw [h3] at hguard
            exact absurd hguard.2 (by simp)
        right
        exact ⟨g, { e with computing := true, stale := false }, by rw [hw], rfl, rfl⟩
      · cases hstep
  | expiredStart =>
    rcases he : s.entry with _ | ge
    · simp [step, he] at hstep
    · obtain ⟨g, e⟩ := ge
      simp only [step, he] at hstep
      split at hstep
      · rename_i hguard
        injection hstep with h
        subst h
        have hw : s.walks = [] := by
          rcases hinv with ⟨h1, _⟩ | ⟨g0, e0, h1, h2, h3⟩
          · exact h1
          · rw [he] at h2
            injection h2 with h2
            obtain ⟨_, he0⟩ := Prod.mk.injEq .. ▸ h2.symm
            rw [he0] at h3
            rw [h3] at hguard
            exact absurd hguard.1 (by simp)
        right
        exact ⟨g, { e with computing := true }, by rw [hw], rfl, rfl⟩
      · cases hstep
  | missStart =>
    rcases he : s.entry with _ | ge
    · simp only [step, he] at hstep
      injection hstep with h
      subst h
      have hw : s.walks = [] := by
        rcases hinv with ⟨h1, _⟩ | ⟨g0, e0, h1, h2, h3⟩
        · exact h1
        · rw [he] at h2; cases h2
      right
      exact ⟨s.nextGen, ⟨0, true, false, false⟩, by rw [hw], rfl, rfl⟩
    · obtain ⟨g, e⟩ := ge
      simp [step, he] at hstep
  | finish g fresh =>
    simp only [step] at hstep
    split at hstep
    · rename_i hmem
      injection hstep with h
      subst h
      rcases hinv with ⟨h1, _⟩ | ⟨g0, e0, h1, h2, h3⟩
      · rw [h1] at hmem
        simp at hmem
      · have hg : g = g0 := by
          rw [h1] at hmem
          simpa using hmem
        subst hg
        left
        constructor
        · simp only [h1]
          simp [List.erase_cons]
        · simp only [entryComputing, h2]
          simp
    · cases hstep
  | evict => exact absurd rfl hop

theorem runCache_inv : ∀ (ops : List CacheOp) (s s' : SizeCacheState),
    (∀ op ∈ ops, op ≠ CacheOp.evict) → cacheInv s →
    runCache s ops = some s' → cacheInv s'
  | [], s, s', h, hinv, hrun => by
    simp only [runCache] at hrun
    injection hrun with hrun
    exact hrun ▸ hinv
  | op :: rest, s, s', h, hinv, hrun => by
    simp only [runCache] at hrun
    rcases hstep : step s op with _ | s1
    · rw [hstep] at hrun; cases hrun
    · rw [hstep] at hrun
      exact runCache_inv rest s1 s' (fun o ho => h o (List.mem_cons_of_mem _ ho))
        (step_preserves_inv (h op (List.mem_cons_self _ _)) hinv hstep) hrun

/-- C5 (amended): as long as the entry is never deleted out from under
an in-flight walk (no `evictSizePath` — and no GC delete — for the
key), every reachable state of one key's cache has at most one
`dirSize` walk in flight, and the walk count mirrors the `computing`
flag: no walk exactly when `computing` is clear, so the flag is set
while a walk runs and cleared only when its result is stored.  With
eviction the guarantee fails: `evictSizePath` during a walk detaches
the computing entry, and the next miss starts a second concurrent walk
for the same key (see the counterexample theorem). -/
theorem cachedDirSize_single_walk (ops : List CacheOp)
    (hno : ∀ op ∈ ops, op ≠ CacheOp.evict) (s : SizeCacheState)
    (hrun : runCache initSizeCache ops = some s) :
    s.walks.length ≤ 1 ∧ (s.walks = [] ↔ entryComputing s = false) := by
  have hinv := runCache_inv ops initSizeCache s hno (Or.inl ⟨rfl, rfl⟩) hrun
  rcases hinv with ⟨h1, h2⟩ | ⟨g, e, h1, h2, h3⟩
  · exact ⟨by simp [h1], by simp [h1, h2]⟩
  · refine ⟨by simp [h1], ?_⟩
    constructor
    · intro hc
      rw [h1] at hc
      cases hc
    · intro hc
      simp only [entryComputing, h2] at hc
      rw [hc] at h3
      cases h3

/-- Witness for C5's amended theorem: a miss, its completion, an
invalidation and the stale-triggered restart — never more than one
walk, and the flag mirrors it. -/
theorem cachedDirSize_single_walk_witness :
    (∀ op ∈ [CacheOp.missStart, CacheOp.finish 0 5, CacheOp.invalidate,
        CacheOp.staleStart], op ≠ CacheOp.evict) ∧
    runCache initSizeCache [CacheOp.missStart, CacheOp.finish 0 5,
        CacheOp.invalidate, CacheOp.staleStart] =
      some ⟨some (0, ⟨5, true, false, false⟩), [0], 1⟩ ∧
    ((⟨some (0, ⟨5, true, false, false⟩), [0], 1⟩ : SizeCacheState).walks.length ≤ 1 ∧
      ((⟨some (0, ⟨5, true, false, false⟩), [0], 1⟩ : SizeCacheState).walks = [] ↔
        entryComputing ⟨some (0, ⟨5, true, false, false⟩), [0], 1⟩ = false)) :=
  ⟨by decide, by decide,
    cachedDirSize_single_walk
      [CacheOp.missStart, CacheOp.finish 0 5, CacheOp.invalidate, CacheOp.staleStart]
      (by decide) ⟨some (0, ⟨5, true, false, false⟩), [0], 1⟩ (by decide)⟩

/-- C5 counterexample: a miss starts a walk; `evictSizePath` deletes
the computing entry; a second request misses again and starts a second
walk — two `dirSize` walks in flight for the same key. -/
theorem evict_allows_second_walk :
    runCache initSizeCache [CacheOp.missStart, CacheOp.evict, CacheOp.missStart] =
      some ⟨some (1, ⟨0, true, false, false⟩), [1, 0], 2⟩ ∧
    (([1, 0] : List Nat).length = 2) := by
  decide

/-! ### C6: trusted-proxy client IP -/

/-- Modelled from the spec: `server.Run` calls
`handlers.SetTrustedProxy(cfg.TrustedProxy)`, but no definition of
`SetTrustedProxy` (or of a header-aware client-IP reader) exists in
the repository's files, so the policy is modelled from the spec's
words: "Either empty (use transport peer address) or a single IP/CIDR;
when a request arrives from an address matching the policy, the
effective client IP is taken from the first of `X-Real-IP` or
`X-Forwarded-For` headers."  IPv4 addresses are 32-bit numbers; a
single IP is a /32 CIDR. -/
structure ProxyPolicy where
  base : Nat
  prefixLen : Nat
deriving Repr, DecidableEq

/-- Modelled from the spec: CIDR membership — the peer address agrees
with the base on the first `prefixLen` bits. -/
def cidrMatch (p : ProxyPolicy) (addr : Nat) : Bool :=
  addr % 2 ^ 32 / 2 ^ (32 - p.prefixLen) = p.base % 2 ^ 32 / 2 ^ (32 - p.prefixLen)

/-- Modelled from the spec: a request as the policy sees it — the
transport peer address and the optional forwarding headers. -/
structure ProxyRequest where
  remoteAddr : Nat
  xRealIP : Option Nat
  xForwardedFor : Option Nat
deriving Repr, DecidableEq

/-- Modelled from the spec: the header-provided client IP — the first
of `X-Real-IP` or `X-Forwarded-For`, the peer address when neither is
present. -/
def firstHeaderIP (r : ProxyRequest) : Nat :=
  match r.xRealIP with
  | some ip => ip
  | none =>
    match r.xForwardedFor with
    | some ip => ip
    | none => r.remoteAddr

/-- Modelled from the spec: the effective client IP used for bandwidth
limiting under a trusted-proxy policy. -/
def effectiveClientIP (policy : Option ProxyPolicy) (r : ProxyRequest) : Nat :=
  match policy with
  | none => r.remoteAddr
  | some p =>
    if cidrMatch p r.remoteAddr then
      match r.xRealIP with
      | some ip => ip
      | none =>
        match r.xForwardedFor with
        | some ip => ip
        | none => r.remoteAddr
    else r.remoteAddr

/-- C6: with an empty policy the effective client IP is the transport
peer address; a request arriving from an address matching the
configured IP/CIDR takes the first of the `X-Real-IP` or
`X-Forwarded-For` headers; a non-matching peer is not affected. -/
theorem effectiveClientIP_policy (p : ProxyPolicy) (r : ProxyRequest)
    (hmatch : cidrMatch p r.remoteAddr = true) :
    effectiveClientIP none r = r.remoteAddr ∧
    effectiveClientIP (some p) r = firstHeaderIP r ∧
    (∀ q : ProxyPolicy, cidrMatch q r.remoteAddr = false →
      effectiveClientIP (some q) r = r.remoteAddr) := by
  refine ⟨rfl, ?_, ?_⟩
  · rw [effectiveClientIP, if_pos hmatch, firstHeaderIP]
  · intro q hq
    rw [effectiveClientIP, if_neg (by simp [hq])]

/-- Witness for C6: policy 10.0.0.0/8; peer 10.1.2.3 matches and the
`X-Real-IP` header value 192.168.0.1 is used. -/
theorem effectiveClientIP_policy_witness :
    cidrMatch ⟨167772160, 8⟩ (⟨167838211, some 3232235521, none⟩ : ProxyRequest).remoteAddr = true ∧
    (effectiveClientIP none ⟨167838211, some 3232235521, none⟩ = 167838211 ∧
      effectiveClientIP (some ⟨167772160, 8⟩) ⟨167838211, some 3232235521, none⟩ =
        firstHeaderIP ⟨167838211, some 3232235521, none⟩ ∧
      (∀ q : ProxyPolicy, cidrMatch q (⟨167838211, some 3232235521, none⟩ : ProxyRequest).remoteAddr = false →
        effectiveClientIP (some q) ⟨167838211, some 3232235521, none⟩ = 167838211)) :=
  ⟨by decide, effectiveClientIP_policy ⟨167772160, 8⟩ ⟨167838211, some 3232235521, none⟩ (by decide)⟩

end Gile
